import Mathlib

/-!
Shallow embedding of the validation engine from this repository
(the `Validation` TypeScript module: `AbstractValidator`, `AbstractValidationRule`,
`AbstractListValidationRule`, `PropertyValidationRule`, `Validator`,
`ValidationContext`, `MessageLocalization`).

JavaScript objects holding string-keyed entries are embedded as insertion-ordered
association lists (`for (var k in o)` iterates string keys in insertion order).
Mutation is embedded as explicit state passing: every method that mutates `this`
returns the updated value.  Exceptions are embedded as an `Option Unit` fault
component (with the accumulated `console.log` output as a `List String`), and
promises as an explicit settlement model (see `AsyncReply` / `PromiseOutcome`).
-/

namespace Validation

/-- Association list lookup, modelling a JavaScript property read `o[k]`
on a string-keyed object used as a map. -/
def alookup {α : Type} : List (String × α) → String → Option α
  | [], _ => none
  | (k, v) :: rest, key => if k = key then some v else alookup rest key

/-- Association list write, modelling `o[k] = v`: an existing key keeps its
position and gets the new value, a fresh key is appended. -/
def upsert {α : Type} (l : List (String × α)) (key : String) (v : α) : List (String × α) :=
  match l with
  | [] => [(key, v)]
  | (k, w) :: rest => if k = key then (key, v) :: rest else (k, w) :: upsert rest key v

/-- Update the value at a key in place (no-op when the key is absent),
modelling a mutation of the object stored at `o[k]`. -/
def updEntry {α : Type} : List (String × α) → String → (α → α) → List (String × α)
  | [], _, _ => []
  | (k, w) :: rest, key, f =>
      if k = key then (k, f w) :: updEntry rest key f else (k, w) :: updEntry rest key f

/-- JavaScript runtime values, as far as the engine observes them: the engine
distinguishes `undefined`, `null`, primitives, plain objects (string-keyed,
insertion ordered) and arrays (`context.length` / `context[i]`). -/
inductive JSVal : Type where
  | undefined : JSVal
  | null : JSVal
  | bool (b : Bool) : JSVal
  | num (n : Int) : JSVal
  | str (s : String) : JSVal
  | obj (fields : List (String × JSVal)) : JSVal
  | arr (elems : List JSVal) : JSVal

/-- Property read `v[k]`: a `TypeError` (fault) on `undefined`/`null`,
the field (or `undefined` when missing) on an object, `undefined` on other
primitives. -/
def JSVal.get : JSVal → String → Except Unit JSVal
  | .undefined, _ => .error ()
  | .null, _ => .error ()
  | .obj fields, k => .ok ((alookup fields k).getD .undefined)
  | _, _ => .ok .undefined

/-- Property write `v[k] = x`: updates an object field (replace or append),
and is a silent no-op on any non-object (non-strict mode semantics). -/
def JSVal.set : JSVal → String → JSVal → JSVal
  | .obj fields, k, x => .obj (upsert fields k x)
  | v, _, _ => v

/-- The strict test `v === undefined`. -/
def JSVal.isUndefined : JSVal → Bool
  | .undefined => true
  | _ => false

/-- The test `value === undefined || value === null` used by the per-validator
absent-value short-circuit. -/
def JSVal.isAbsent : JSVal → Bool
  | .undefined => true
  | .null => true
  | _ => false

/-- String coercion used when an attempted value is substituted into a
localized message template. -/
def JSVal.display : JSVal → String
  | .undefined => "undefined"
  | .null => "null"
  | .bool b => if b then "true" else "false"
  | .num n => toString n
  | .str s => s
  | .obj _ => "[object Object]"
  | .arr _ => ""

/-- Message arguments carried by a failure: a snapshot of the validator object
after `_.extend(validator, \x7bAttemptedValue: value\x7d)` (tag, extra
parameters, attempted value). -/
structure MessageArgs where
  tagName : String
  params : List (String × String)
  AttemptedValue : Option JSVal

/-- Translation arguments of an error: `\x7b TranslateId, MessageArgs \x7d`. -/
structure TranslateArgs where
  TranslateId : String
  MessageArgs : MessageArgs

/-- Modelled from the spec: the `Error` result primitive lives in `errors.ts`,
which is not under `src/`.  Per the spec (§3), an error has `hasError : bool`,
`message : string` and `translateArgs`; a fresh `new Error()` reports no error. -/
structure Error where
  HasError : Bool := false
  ErrorMessage : String := ""
  TranslateArgs : Option TranslateArgs := none

/-- Modelled from the spec: `ValidationFailure` lives in `errors.ts`, not under
`src/`.  Its use in `PropertyValidationRule` shows one (error, isAsync) pair per
validator tag (`new ValidationFailure(new Error(), !!validator.isAsync)`). -/
structure ValidationFailure where
  Error : Error
  IsAsync : Bool

/-- Settlement behaviour of one call to an asynchronous validator capability
`isAcceptable(value)`: the call can throw synchronously, or return a promise
that later resolves with a boolean or rejects. -/
inductive AsyncReply : Type where
  | throws : AsyncReply
  | resolves (b : Bool) : AsyncReply
  | rejects : AsyncReply

/-- A property validator capability (the duck-typed `IPropertyValidator` /
`IAsyncPropertyValidator` contract): a unique `tagName`, an `isAsync` flag, the
sync and async acceptability capabilities, extra message parameters, and the
`AttemptedValue` field that `_.extend` writes onto the object during
evaluation (absent on a freshly declared validator). -/
structure PropertyValidator where
  tagName : String
  isAsync : Bool := false
  isAcceptable : JSVal → Except Unit Bool := fun _ => .ok true
  isAcceptableAsync : JSVal → AsyncReply := fun _ => .resolves true
  params : List (String × String) := []
  AttemptedValue : Option JSVal := none

/-- The validator-object snapshot used as `MessageArgs` after the `_.extend`. -/
def PropertyValidator.toMessageArgs (v : PropertyValidator) : MessageArgs :=
  ⟨v.tagName, v.params, v.AttemptedValue⟩

/-- Modelled from the spec: `StringFce.format` comes from `Utils.ts`, which is
not under `src/`.  Per the spec (§6) template placeholders are substituted from
the validator extra parameters and the attempted value. -/
def StringFce.format (msg : String) (args : MessageArgs) : String :=
  (args.params ++ (match args.AttemptedValue with
      | some v => [("AttemptedValue", v.display)]
      | none => [])).foldl
    (fun m kv => m.replace ("\x7b" ++ kv.1 ++ "\x7d") kv.2) msg

/-- The built-in fallback message of `MessageLocalization`. -/
def MessageLocalization.customMsg : String := "Please, fix the field."

/-- The built-in default message table of `MessageLocalization`. -/
def MessageLocalization.defaultMessages : List (String × String) :=
  [("required", "This field is required."),
   ("remote", "Please fix the field."),
   ("email", "Please enter a valid email address."),
   ("url", "Please enter a valid URL."),
   ("date", "Please enter a valid date."),
   ("dateISO", "Please enter a valid date ( ISO )."),
   ("number", "Please enter a valid number."),
   ("digits", "Please enter only digits."),
   ("signedDigits", "Please enter only signed digits."),
   ("creditcard", "Please enter a valid credit card number."),
   ("equalTo", "Please enter the same value again."),
   ("maxlength", "Please enter no more than \x7bMaxLength\x7d characters.."),
   ("minlength", "Please enter at least \x7bMinLength\x7d characters."),
   ("rangelength", "Please enter a value between \x7bMinLength\x7d and \x7bMaxLength\x7d characters long."),
   ("range", "Please enter a value between \x7bMin\x7d and \x7bMax\x7d."),
   ("max", "Please enter a value less than or equal to \x7bMax\x7d."),
   ("min", "Please enter a value greater than or equal to \x7bMin\x7d."),
   ("step", "Please enter a value with step \x7bStep\x7d."),
   ("contains", "Please enter a value from list of values. Attempted value \x27\x7bAttemptedValue\x7d\x27."),
   ("mask", "Please enter a value corresponding with \x7bMask\x7d."),
   ("custom", MessageLocalization.customMsg)]

/-- Message lookup `MessageLocalization.GetValidationMessage(validator)`:
the table entry for the tag, falling back to `customMsg` when it is missing or
empty, then formatted with the validator message arguments. -/
def MessageLocalization.GetValidationMessage (args : MessageArgs) : String :=
  let msgText := (alookup MessageLocalization.defaultMessages args.tagName).getD
    MessageLocalization.customMsg
  let msgText := if msgText = "" then MessageLocalization.customMsg else msgText
  StringFce.format msgText args

/-- The data context `ValidationContext(key, data)` handed to a property rule. -/
structure ValidationContext where
  Key : String
  Data : JSVal

/-- The getter `context.Value`, that is `this.Data[this.Key]`; it faults
(`TypeError`) when `Data` is `undefined` or `null`. -/
def ValidationContext.Value (c : ValidationContext) : Except Unit JSVal :=
  c.Data.get c.Key

/-- State of a `PropertyValidationRule` node: validators and tag-keyed failure
slots (insertion ordered), plus the `Optional` suppression predicate inherited
from `ValidationResult`.  The predicate reads external mutable state, embedded
here as a function of an abstract world instant (`Nat`). -/
structure PropertyValidationRule where
  Name : String
  Validators : List (String × PropertyValidator) := []
  ValidationFailures : List (String × ValidationFailure) := []
  Optional : Option (Nat → Bool) := none

/-- The method `AddValidator`: registers the validator under its tag and
creates the tag-keyed failure slot (`new ValidationFailure(new Error(),
!!validator.isAsync)`); re-adding a tag replaces both entries. -/
def PropertyValidationRule.AddValidator (r : PropertyValidationRule)
    (v : PropertyValidator) : PropertyValidationRule :=
  { r with
    Validators := upsert r.Validators v.tagName v,
    ValidationFailures := upsert r.ValidationFailures v.tagName ⟨{}, v.isAsync⟩ }

/-- The constructor `new PropertyValidationRule(name, validatorsToAdd)`. -/
def mkPropertyValidationRule (name : String) (validatorsToAdd : List PropertyValidator) :
    PropertyValidationRule :=
  validatorsToAdd.foldl PropertyValidationRule.AddValidator
    { Name := name }

/-- The getter `Errors`: the error objects of all failure slots. -/
def PropertyValidationRule.Errors (r : PropertyValidationRule) : List Error :=
  r.ValidationFailures.map (fun p => p.2.Error)

/-- Evaluation of the `Optional` predicate guard
(`this.Optional != undefined && _.isFunction(this.Optional) && this.Optional()`)
at world instant `w`. -/
def optionalNow (o : Option (Nat → Bool)) (w : Nat) : Bool :=
  match o with
  | some p => p w
  | none => false

/-- The getter `HasErrors` of a property rule node, read at world instant `w`. -/
def PropertyValidationRule.HasErrorsAt (r : PropertyValidationRule) (w : Nat) : Bool :=
  if optionalNow r.Optional w then false
  else r.Errors.any (fun e => e.HasError)

/-- The getter `ErrorCount` of a property rule node (0 or 1). -/
def PropertyValidationRule.ErrorCountAt (r : PropertyValidationRule) (w : Nat) : Nat :=
  if r.HasErrorsAt w then 1 else 0

/-- The getter `ErrorMessage` of a property rule node: empty unless the node
has errors, else the concatenation of all slot messages. -/
def PropertyValidationRule.ErrorMessageAt (r : PropertyValidationRule) (w : Nat) : String :=
  if !(r.HasErrorsAt w) then ""
  else r.Errors.foldl (fun memo e => memo ++ e.ErrorMessage) ""

/-- The error object written by one evaluation step: the validator object is
extended with the attempted value (`_.extend(validator,
\x7bAttemptedValue: value\x7d)`) and the error fields are assigned (`HasError`,
`ErrorMessage` via the localization table when failing, `TranslateArgs`). -/
def appliedError (value : JSVal) (v : PropertyValidator) (hasError : Bool) : Error :=
  let v := { v with AttemptedValue := some value }
  let margs := v.toMessageArgs
  { HasError := hasError,
    ErrorMessage :=
      if hasError then MessageLocalization.GetValidationMessage margs else "",
    TranslateArgs := some ⟨v.tagName, margs⟩ }

/-- Output of one synchronous pass over the failure slots: the updated slots,
the updated validator objects, the `console.log` output and whether the pass
threw. -/
structure SyncGoOut where
  failures : List (String × ValidationFailure)
  validators : List (String × PropertyValidator)
  log : List String
  fault : Option Unit

/-- The per-validator outcome expression of the sync loop:
`((value===undefined || value === null) && validator.tagName!="required") ?
false : !validator.isAcceptable(value)`.  It depends only on the attempted
value and the one validator; a throw from `isAcceptable` surfaces as `.error`. -/
def syncOutcome (value : JSVal) (v : PropertyValidator) : Except Unit Bool :=
  if value.isAbsent && v.tagName ≠ "required" then .ok false
  else (v.isAcceptable value).map (fun b => !b)

/-- The loop body of `ValidateEx`, walking the failure slots in insertion order
and carrying the `lastPriority` / `shortCircuited` locals.  Async slots are
skipped (`if (validation.IsAsync) continue`).  A throw from `isAcceptable` is
logged and re-raised, aborting the loop with the slots updated so far. -/
def validateExGo (value : JSVal) :
    List (String × ValidationFailure) → List (String × PropertyValidator) →
    Int → Bool → SyncGoOut
  | [], validators, _, _ => ⟨[], validators, [], none⟩
  | (tag, fail) :: rest, validators, lastPriority, shortCircuited =>
      if fail.IsAsync then
        let out := validateExGo value rest validators lastPriority shortCircuited
        ⟨(tag, fail) :: out.failures, out.validators, out.log, out.fault⟩
      else
        match alookup validators tag with
        | none => ⟨(tag, fail) :: rest, validators, [], some ()⟩
        | some v =>
            let priority : Int := 0
            if shortCircuited && decide (priority > lastPriority) then
              let fail := { fail with Error := { fail.Error with HasError := false } }
              let out := validateExGo value rest validators lastPriority shortCircuited
              ⟨(tag, fail) :: out.failures, out.validators, out.log, out.fault⟩
            else
              match syncOutcome value v with
              | .error _ =>
                  ⟨(tag, fail) :: rest, validators,
                    ["Exception occurred when checking element\x27" ++ v.tagName ++ "\x27 method."],
                    some ()⟩
              | .ok hasError =>
                  let validators := upsert validators tag
                    { v with AttemptedValue := some value }
                  let out := validateExGo value rest validators priority hasError
                  ⟨(tag, { fail with Error := appliedError value v hasError }) :: out.failures,
                    out.validators, out.log, out.fault⟩

/-- Result of running one pass of a property rule: the updated rule node, the
log output, and whether the pass re-raised an exception. -/
structure SyncPassResult where
  rule : PropertyValidationRule
  log : List String
  fault : Option Unit

/-- The method `ValidateEx(value)`: runs the synchronous loop over the failure
slots starting from `lastPriority = 0`, `shortCircuited = false`. -/
def PropertyValidationRule.ValidateEx (r : PropertyValidationRule) (value : JSVal) :
    SyncPassResult :=
  let out := validateExGo value r.ValidationFailures r.Validators 0 false
  ⟨{ r with ValidationFailures := out.failures, Validators := out.validators },
    out.log, out.fault⟩

/-- The method `Validate(context)`: evaluates `context.Value` and delegates to
`ValidateEx`; any exception (from the getter or from a validator) is logged
with the element key and re-raised to the caller. -/
def PropertyValidationRule.Validate (r : PropertyValidationRule) (ctx : ValidationContext) :
    SyncPassResult :=
  match ctx.Value with
  | .error _ =>
      ⟨r, ["Exception occurred when checking element " ++ ctx.Key ++ "."], some ()⟩
  | .ok value =>
      let out := r.ValidateEx value
      match out.fault with
      | some _ =>
          ⟨out.rule,
            out.log ++ ["Exception occurred when checking element " ++ ctx.Key ++ "."],
            some ()⟩
      | none => out

/-- Observable fate of the promise returned by an async evaluation entry point:
it can be preempted by a synchronous throw (the function never returns a
promise), or the returned promise resolves, rejects, or never settles. -/
inductive PromiseOutcome : Type where
  | resolves : PromiseOutcome
  | rejects : PromiseOutcome
  | hangs : PromiseOutcome
  | syncThrow : PromiseOutcome
deriving DecidableEq

/-- Whether a registered promise eventually rejects. -/
def AsyncReply.isRejects : AsyncReply → Bool
  | .rejects => true
  | _ => false

/-- State of the registration loop of `ValidateAsyncEx`.  Because the loop
declares `var validation` / `var validator` with function scope, every
`.then` callback closes over the same two bindings; at callback time they hold
the values of the last loop iteration: `capturedFailureTag` is the tag of the
last slot walked (`validation` is assigned on every iteration, async or not)
and `capturedValidatorTag` the tag of the last async validator walked. -/
structure AsyncRegOut where
  regs : List AsyncReply
  capturedFailureTag : Option String
  capturedValidatorTag : Option String
  log : List String
  threw : Bool

/-- The per-validator promise expression of the async loop:
`((value===undefined || value === null) && validator.tagName!="required") ?
Q.when(true) : validator.isAcceptable(value)`. -/
def asyncReplyOf (value : JSVal) (v : PropertyValidator) : AsyncReply :=
  if value.isAbsent && v.tagName ≠ "required" then .resolves true
  else v.isAcceptableAsync value

/-- The registration loop of `ValidateAsyncEx`: walks the failure slots in
insertion order, and for each async slot builds the promise (`asyncReplyOf`)
and pushes it onto `promises` after registering the result-writing `.then`
callback.  A synchronous throw from `isAcceptable` is logged and re-raised,
aborting the loop. -/
def validateAsyncRegGo (value : JSVal) (validators : List (String × PropertyValidator)) :
    List (String × ValidationFailure) → AsyncRegOut → AsyncRegOut
  | [], acc => acc
  | (tag, fail) :: rest, acc =>
      let acc := { acc with capturedFailureTag := some tag }
      if !fail.IsAsync then validateAsyncRegGo value validators rest acc
      else
        match alookup validators tag with
        | none => { acc with threw := true }
        | some v =>
            let acc := { acc with capturedValidatorTag := some tag }
            match asyncReplyOf value v with
            | .throws =>
                { acc with
                  log := acc.log ++
                    ["Exception occurred when checking element\x27" ++ v.tagName ++ "\x27 method."],
                  threw := true }
            | r => validateAsyncRegGo value validators rest { acc with regs := acc.regs ++ [r] }

/-- One `.then` callback of `ValidateAsyncEx` executing with resolution value
`b`: through the captured loop variables it writes the outcome into the
captured failure slot and extends the captured validator with the attempted
value. -/
def asyncCallbackWrite (value : JSVal) (capturedFailureTag capturedValidatorTag : Option String)
    (b : Bool)
    (st : List (String × ValidationFailure) × List (String × PropertyValidator)) :
    List (String × ValidationFailure) × List (String × PropertyValidator) :=
  match capturedFailureTag, capturedValidatorTag with
  | some ftag, some vtag =>
      match alookup st.2 vtag with
      | some vc =>
          let err := appliedError value vc (!b)
          (updEntry st.1 ftag (fun f => { f with Error := err }),
            upsert st.2 vtag { vc with AttemptedValue := some value })
      | none => st
  | _, _ => st

/-- Execution of the registered `.then` callbacks in promise-settlement order:
`order` lists indices into the registered promise list in the order in which
those promises settle.  A rejected promise never runs its callback (only a
fulfillment handler was registered). -/
def asyncApplyCallbacks (value : JSVal) (capturedFailureTag capturedValidatorTag : Option String)
    (regs : List AsyncReply) (order : List Nat)
    (st : List (String × ValidationFailure) × List (String × PropertyValidator)) :
    List (String × ValidationFailure) × List (String × PropertyValidator) :=
  order.foldl
    (fun st i =>
      match regs.get? i with
      | some (.resolves b) => asyncCallbackWrite value capturedFailureTag capturedValidatorTag b st
      | _ => st)
    st

/-- Result of the asynchronous pass of a property rule: the node state after
all settled callbacks have run, the fate of the returned promise, and the log
output. -/
structure AsyncPassResult where
  rule : PropertyValidationRule
  outcome : PromiseOutcome
  log : List String

/-- The method `ValidateAsyncEx(value)`, with promise settlement order `order`.
The returned deferred is resolved only inside the fulfillment handler of
`Q.all(promises)`; hence a registered promise that rejects makes `Q.all`
reject, no rejection handler runs, and the returned promise never settles
(`hangs`).  A synchronous throw from `isAcceptable` propagates out of the
method itself (`syncThrow`). -/
def PropertyValidationRule.ValidateAsyncEx (r : PropertyValidationRule) (value : JSVal)
    (order : List Nat) : AsyncPassResult :=
  let regOut := validateAsyncRegGo value r.Validators r.ValidationFailures
    ⟨[], none, none, [], false⟩
  let st := asyncApplyCallbacks value regOut.capturedFailureTag regOut.capturedValidatorTag
    regOut.regs order (r.ValidationFailures, r.Validators)
  ⟨{ r with ValidationFailures := st.1, Validators := st.2 },
    if regOut.threw then .syncThrow
    else if regOut.regs.any AsyncReply.isRejects then .hangs
    else .resolves,
    regOut.log⟩

/-- The method `ValidateAsync(context)`: reads `context.Value` (a `TypeError`
when the data context is `undefined`/`null` propagates synchronously) and
delegates to `ValidateAsyncEx`. -/
def PropertyValidationRule.ValidateAsync (r : PropertyValidationRule) (ctx : ValidationContext)
    (order : List Nat) : AsyncPassResult :=
  match ctx.Value with
  | .error _ => ⟨r, .syncThrow, []⟩
  | .ok value => r.ValidateAsyncEx value order

/-- The loop of `ValidateEx` with the `lastPriority` / `shortCircuited`
scaffolding removed: every sync slot is evaluated unconditionally.  Used to
state that the short-circuit branch of the real loop is unreachable. -/
def validateExNoSCGo (value : JSVal) :
    List (String × ValidationFailure) → List (String × PropertyValidator) → SyncGoOut
  | [], validators => ⟨[], validators, [], none⟩
  | (tag, fail) :: rest, validators =>
      if fail.IsAsync then
        let out := validateExNoSCGo value rest validators
        ⟨(tag, fail) :: out.failures, out.validators, out.log, out.fault⟩
      else
        match alookup validators tag with
        | none => ⟨(tag, fail) :: rest, validators, [], some ()⟩
        | some v =>
            match syncOutcome value v with
            | .error _ =>
                ⟨(tag, fail) :: rest, validators,
                  ["Exception occurred when checking element\x27" ++ v.tagName ++ "\x27 method."],
                  some ()⟩
            | .ok hasError =>
                let validators := upsert validators tag
                  { v with AttemptedValue := some value }
                let out := validateExNoSCGo value rest validators
                ⟨(tag, { fail with Error := appliedError value v hasError }) :: out.failures,
                  out.validators, out.log, out.fault⟩

/-- Rule-level wrapper of the short-circuit-free loop, for comparison with
`ValidateEx`. -/
def PropertyValidationRule.ValidateExNoSC (r : PropertyValidationRule) (value : JSVal) :
    SyncPassResult :=
  let out := validateExNoSCGo value r.ValidationFailures r.Validators
  ⟨{ r with ValidationFailures := out.failures, Validators := out.validators },
    out.log, out.fault⟩

/-- The named shared-validation function contract `IValidatorFce`:
`\x7b Name, ValidationFce \x7d` where the function receives the data context as
its bound `this` and populates the output error object.  The bound call
`ValidationFce.bind(context)(error)` is embedded as a pure function from the
context and the previous error state to the new error state. -/
structure IValidatorFce where
  Name : String
  ValidationFce : JSVal → Error → Error

/-- The class `Validator` (shared validation rule wrapper): one externally
supplied validation function, one error slot, and the `Optional` suppression
predicate.  `vid` records object creation order, standing in for JavaScript
object identity. -/
structure Validator where
  vid : Nat
  Name : String
  ValidateFce : JSVal → Error → Error
  Error : Error := {}
  Optional : Option (Nat → Bool) := none

/-- The method `Validator.Validate(context)`:
`this.ValidateFce.bind(context)(this.Error)` mutates the error slot in place
(the boolean it returns is unused by the engine). -/
def Validator.Validate (v : Validator) (context : JSVal) : Validator :=
  { v with Error := v.ValidateFce context v.Error }

/-- The getter `HasErrors` of a shared validator node, read at world `w`. -/
def Validator.HasErrorsAt (v : Validator) (w : Nat) : Bool :=
  if optionalNow v.Optional w then false
  else v.Error.HasError

/-- The getter `ErrorCount` of a shared validator node. -/
def Validator.ErrorCountAt (v : Validator) (w : Nat) : Nat :=
  if v.HasErrorsAt w then 1 else 0

/-- The getter `ErrorMessage` of a shared validator node. -/
def Validator.ErrorMessageAt (v : Validator) (w : Nat) : String :=
  if !(v.HasErrorsAt w) then "" else v.Error.ErrorMessage

/-- The builder `AbstractValidator` (declaration surface): property name to
ordered validators, property name to ordered named shared-validation
functions, property name to nested declaration; `ForList` is the flag that
`ValidatorFor` stamps on a nested declaration.  Declarations nest, hence an
inductive type. -/
inductive AbstractValidator : Type where
  | mk (Validators : List (String × List PropertyValidator))
       (ValidationFunctions : List (String × List IValidatorFce))
       (AbstractValidators : List (String × AbstractValidator))
       (ForList : Bool) : AbstractValidator

def AbstractValidator.Validators : AbstractValidator → List (String × List PropertyValidator)
  | .mk v _ _ _ => v

def AbstractValidator.ValidationFunctions : AbstractValidator → List (String × List IValidatorFce)
  | .mk _ f _ _ => f

def AbstractValidator.AbstractValidators : AbstractValidator → List (String × AbstractValidator)
  | .mk _ _ n _ => n

def AbstractValidator.ForList : AbstractValidator → Bool
  | .mk _ _ _ b => b

/-- The builder method `RuleFor(prop, validator)`: appends to the property
validator list (creating it when absent). -/
def AbstractValidator.RuleFor (a : AbstractValidator) (prop : String)
    (v : PropertyValidator) : AbstractValidator :=
  match a with
  | .mk vs fs ns fl => .mk (upsert vs prop ((alookup vs prop).getD [] ++ [v])) fs ns fl

/-- The builder method `ValidationFor(prop, fce)`: appends to the property
shared-validation list (creating it when absent). -/
def AbstractValidator.ValidationFor (a : AbstractValidator) (prop : String)
    (fce : IValidatorFce) : AbstractValidator :=
  match a with
  | .mk vs fs ns fl => .mk vs (upsert fs prop ((alookup fs prop).getD [] ++ [fce])) ns fl

/-- Stamp the `ForList` flag on a declaration (the assignment
`validator.ForList = forList` inside `ValidatorFor`). -/
def AbstractValidator.withForList : AbstractValidator → Bool → AbstractValidator
  | .mk vs fs ns _, b => .mk vs fs ns b

/-- The builder method `ValidatorFor(prop, validator, forList?)`. -/
def AbstractValidator.ValidatorFor (a : AbstractValidator) (prop : String)
    (sub : AbstractValidator) (forList : Bool) : AbstractValidator :=
  match a with
  | .mk vs fs ns fl => .mk vs fs (upsert ns prop (sub.withForList forList)) fl

/-- The empty declaration `new AbstractValidator()`. -/
def emptyAbstractValidator : AbstractValidator := .mk [] [] [] false

/-- The rule tree node `AbstractValidationRule`: its property rules, its
shared validators, its child rules, bound to its declaration.  `contributors`
embeds the composite result membership.  Modelled from the spec for the
composite part: `CompositeValidationResult` lives in `errors.ts`, not under
`src/`; per the spec (§3) it is a named container to which `Add` appends
contributing nodes, recorded here by name in `Add` call order.  `rid` records
object creation order, standing in for JavaScript object identity. -/
inductive AbstractValidationRule : Type where
  | mk (rid : Nat) (Name : String) (validator : AbstractValidator)
       (Rules : List (String × PropertyValidationRule))
       (Validators : List (String × Validator))
       (Children : List (String × AbstractValidationRule))
       (contributors : List String)
       (ForList : Bool) : AbstractValidationRule

def AbstractValidationRule.rid : AbstractValidationRule → Nat
  | .mk i _ _ _ _ _ _ _ => i

def AbstractValidationRule.Name : AbstractValidationRule → String
  | .mk _ n _ _ _ _ _ _ => n

def AbstractValidationRule.validator : AbstractValidationRule → AbstractValidator
  | .mk _ _ d _ _ _ _ _ => d

def AbstractValidationRule.Rules : AbstractValidationRule → List (String × PropertyValidationRule)
  | .mk _ _ _ r _ _ _ _ => r

def AbstractValidationRule.Validators : AbstractValidationRule → List (String × Validator)
  | .mk _ _ _ _ v _ _ _ => v

def AbstractValidationRule.Children :
    AbstractValidationRule → List (String × AbstractValidationRule)
  | .mk _ _ _ _ _ c _ _ => c

def AbstractValidationRule.contributors : AbstractValidationRule → List String
  | .mk _ _ _ _ _ _ cs _ => cs

def AbstractValidationRule.ForList : AbstractValidationRule → Bool
  | .mk _ _ _ _ _ _ _ b => b

/-- Rebuild a node with new mutable parts (rules, shared validators, children,
contributors), keeping identity, name, declaration and kind. -/
def AbstractValidationRule.withParts (r : AbstractValidationRule)
    (rules : List (String × PropertyValidationRule)) (vals : List (String × Validator))
    (children : List (String × AbstractValidationRule)) (contrib : List String) :
    AbstractValidationRule :=
  .mk r.rid r.Name r.validator rules vals children contrib r.ForList

/-- State while materializing shared validators at construction:
the `Validators` map, the composite contributors, and the identity counter. -/
structure SharedBuildSt where
  vals : List (String × Validator)
  contrib : List String
  ctr : Nat

/-- The shared-validator materialization of the constructor: for each declared
function name not yet present, `new Validator(name, fce)` is created, stored
and added to the composite result. -/
def addValidatorFces : List IValidatorFce → SharedBuildSt → SharedBuildSt
  | [], st => st
  | fce :: rest, st =>
      match alookup st.vals fce.Name with
      | some _ => addValidatorFces rest st
      | none =>
          addValidatorFces rest
            ⟨st.vals ++ [(fce.Name, ⟨st.ctr, fce.Name, fce.ValidationFce, {}, none⟩)],
              st.contrib ++ [fce.Name], st.ctr + 1⟩

/-- Walk of all declared shared-validation entries at construction. -/
def addValidationFunctions : List (String × List IValidatorFce) → SharedBuildSt → SharedBuildSt
  | [], st => st
  | (_, fces) :: rest, st => addValidationFunctions rest (addValidatorFces fces st)

/-- The property-rule construction of the constructor: `createRuleFor(key)`
followed by `AddValidator` for each declared validator of the property. -/
def buildRules (l : List (String × List PropertyValidator)) :
    List (String × PropertyValidationRule) :=
  l.foldl (fun acc kv => upsert acc kv.1 (mkPropertyValidationRule kv.1 kv.2)) []

/-- State while building children at construction (`addChildren`). -/
structure ChildBuildSt where
  children : List (String × AbstractValidationRule)
  contrib : List String
  ctr : Nat

/-- The `addChildren` walk: one child rule per declared nested validator,
a list rule when the nested declaration is marked `ForList`, added to
`Children` and to the composite result. -/
def addChildrenGo (mkChild : String → AbstractValidator → Bool → Nat → AbstractValidationRule × Nat) :
    List (String × AbstractValidator) → ChildBuildSt → ChildBuildSt
  | [], st => st
  | (key, sub) :: rest, st =>
      let built := mkChild key sub sub.ForList st.ctr
      addChildrenGo mkChild rest
        ⟨upsert st.children key built.1, st.contrib ++ [key], built.2⟩

/-- The constructor `new AbstractValidationRule(name, validator, forList?)`:
for a non-list rule it eagerly creates one property rule per declared
property, one shared `Validator` per declared shared-validation name, and one
child rule per nested declaration; a list rule (`forList = true`, as built by
`AbstractListValidationRule`) starts with none of these.  `fuel` bounds the
nesting depth of the declaration; `ctr` allocates identities. -/
def mkAbstractValidationRule : Nat → Nat → String → AbstractValidator → Bool →
    AbstractValidationRule × Nat
  | 0, ctr, name, d, forList => (.mk ctr name d [] [] [] [] forList, ctr + 1)
  | fuel + 1, ctr, name, d, forList =>
      if forList then (.mk ctr name d [] [] [] [] true, ctr + 1)
      else
        let rules := buildRules d.Validators
        let st1 := addValidationFunctions d.ValidationFunctions ⟨[], [], ctr + 1⟩
        let st2 := addChildrenGo
          (fun key sub fl c => mkAbstractValidationRule fuel c key sub fl)
          d.AbstractValidators ⟨[], [], st1.ctr⟩
        (.mk ctr name d rules st1.vals st2.children
          (d.Validators.map Prod.fst ++ st1.contrib ++ st2.contrib) false, st2.ctr)

/-- The method `CreateRule(name)` / `CreateAbstractRule(name)` of the builder. -/
def AbstractValidator.CreateAbstractRule (d : AbstractValidator) (fuel ctr : Nat)
    (name : String) : AbstractValidationRule × Nat :=
  mkAbstractValidationRule fuel ctr name d false

/-- The method `CreateAbstractListRule(name)` of the builder. -/
def AbstractValidator.CreateAbstractListRule (d : AbstractValidator) (fuel ctr : Nat)
    (name : String) : AbstractValidationRule × Nat :=
  mkAbstractValidationRule fuel ctr name d true

/-- The key `this.Name + i.toString()` of the list child at index `i`. -/
def getIndexedKey (name : String) (i : Nat) : String := name ++ toString i

/-- The index walk of `NotifyListChanged`: for every index lacking a child,
create `this.validator.CreateAbstractRule(keyName)` (a plain, non-list rule
from the same declaration), register it and add it to the composite result. -/
def notifyListGo (fuel : Nat) (name : String) (d : AbstractValidator) :
    List Nat → List (String × AbstractValidationRule) × List String × Nat →
    List (String × AbstractValidationRule) × List String × Nat
  | [], st => st
  | i :: rest, st =>
      let key := getIndexedKey name i
      match alookup st.1 key with
      | some _ => notifyListGo fuel name d rest st
      | none =>
          let built := mkAbstractValidationRule fuel st.2.2 key d false
          notifyListGo fuel name d rest (upsert st.1 key built.1, st.2.1 ++ [key], built.2)

/-- The method `AbstractListValidationRule.NotifyListChanged(list)`: walk the
indices of the current list, creating the missing children; nothing is ever
removed. -/
def AbstractValidationRule.NotifyListChanged (fuel : Nat) (ctr : Nat)
    (r : AbstractValidationRule) (len : Nat) : AbstractValidationRule × Nat :=
  let out := notifyListGo fuel r.Name r.validator (List.range len)
    (r.Children, r.contributors, ctr)
  (r.withParts r.Rules r.Validators out.1 out.2.1, out.2.2)

/-- Output of one synchronous tree evaluation: updated node, updated (possibly
mutated) data context, identity counter, fault flag, log. -/
structure TreeSyncOut where
  rule : AbstractValidationRule
  context : JSVal
  ctr : Nat
  fault : Option Unit
  log : List String

/-- The `_.each(this.Children, ...)` loop of `Validate`: a nested property
that reads as `undefined` is first initialized to `\x7b\x7d` on the input
context itself, then the child is validated against it and its mutations are
visible through the context (aliasing, embedded as a write-back).  A fault
aborts the loop. -/
def childrenLoop (recur : AbstractValidationRule → JSVal → Nat → TreeSyncOut) :
    List (String × AbstractValidationRule) → JSVal → Nat →
    List (String × AbstractValidationRule) × JSVal × Nat × Option Unit × List String
  | [], ctx, ctr => ([], ctx, ctr, none, [])
  | (key, child) :: rest, ctx, ctr =>
      let run := fun (v : JSVal) (ctxA : JSVal) =>
        let out := recur child v ctr
        let ctxB := ctxA.set key out.context
        match out.fault with
        | some _ => ((key, out.rule) :: rest, ctxB, out.ctr, some (), out.log)
        | none =>
            let o2 := childrenLoop recur rest ctxB out.ctr
            ((key, out.rule) :: o2.1, o2.2.1, o2.2.2.1, o2.2.2.2.1, out.log ++ o2.2.2.2.2)
      match ctx.get key with
      | .error _ => ((key, child) :: rest, ctx, ctr, some (), [])
      | .ok v0 =>
          if v0.isUndefined then
            let ctxA := ctx.set key (JSVal.obj [])
            match ctxA.get key with
            | .error _ => ((key, child) :: rest, ctxA, ctr, some (), [])
            | .ok v => run v ctxA
          else run v0 ctx

/-- The `for (var propName in this.Rules)` loop of `Validate`: each property
rule is evaluated against `new ValidationContext(propName, context)`; a fault
aborts the loop (subsequent rules keep their previous state). -/
def rulesLoop : List (String × PropertyValidationRule) → JSVal →
    List (String × PropertyValidationRule) × Option Unit × List String
  | [], _ => ([], none, [])
  | (prop, rule) :: rest, ctx =>
      let out := rule.Validate ⟨prop, ctx⟩
      match out.fault with
      | some _ => ((prop, out.rule) :: rest, some (), out.log)
      | none =>
          let o2 := rulesLoop rest ctx
          ((prop, out.rule) :: o2.1, o2.2.1, out.log ++ o2.2.2)

/-- One shared-validation entry of the `Validate` walk: run the stored
`Validator` of that name, when it exists. -/
def sharedFceRun (ctx : JSVal) (vals : List (String × Validator))
    (fce : IValidatorFce) : List (String × Validator) :=
  match alookup vals fce.Name with
  | some v => upsert vals fce.Name (v.Validate ctx)
  | none => vals

/-- The `_.each(this.validator.ValidationFunctions, ...)` walk of `Validate`. -/
def sharedLoop (ctx : JSVal) (fns : List (String × List IValidatorFce))
    (vals : List (String × Validator)) : List (String × Validator) :=
  fns.foldl (fun vals kv => kv.2.foldl (sharedFceRun ctx) vals) vals

/-- The per-index loop of `AbstractListValidationRule.Validate`: element `i`
is validated by the child keyed `Name + i` when that child exists. -/
def listIndexLoop (recur : AbstractValidationRule → JSVal → Nat → TreeSyncOut)
    (name : String) :
    List Nat → List (String × AbstractValidationRule) → List JSVal → Nat →
    List (String × AbstractValidationRule) × List JSVal × Nat × Option Unit × List String
  | [], children, elems, ctr => (children, elems, ctr, none, [])
  | i :: rest, children, elems, ctr =>
      match alookup children (getIndexedKey name i) with
      | none => listIndexLoop recur name rest children elems ctr
      | some child =>
          let out := recur child (elems.getD i .undefined) ctr
          let children := upsert children (getIndexedKey name i) out.rule
          let elems := elems.set i out.context
          match out.fault with
          | some _ => (children, elems, out.ctr, some (), out.log)
          | none =>
              let o2 := listIndexLoop recur name rest children elems out.ctr
              (o2.1, o2.2.1, o2.2.2.1, o2.2.2.2.1, out.log ++ o2.2.2.2.2)

/-- The method `Validate(context)`.  For a non-list rule: child rules first
(initializing strictly-`undefined` nested properties to `\x7b\x7d` on the
input context), then the property rules, then the shared validators.  For a
list rule (`AbstractListValidationRule.Validate`): reconcile children against
the current list length (`NotifyListChanged`), then validate each index; a
non-array context leaves the loops empty.  `fuel` bounds recursion depth. -/
def AbstractValidationRule.Validate : Nat → Nat → AbstractValidationRule → JSVal → TreeSyncOut
  | 0, ctr, r, ctx => ⟨r, ctx, ctr, none, []⟩
  | fuel + 1, ctr, r, ctx =>
      if r.ForList then
        match ctx with
        | .arr xs =>
            let notified := r.NotifyListChanged fuel ctr xs.length
            let lo := listIndexLoop (fun c v k => AbstractValidationRule.Validate fuel k c v)
              r.Name (List.range xs.length) notified.1.Children xs notified.2
            ⟨notified.1.withParts notified.1.Rules notified.1.Validators lo.1
                notified.1.contributors,
              .arr lo.2.1, lo.2.2.1, lo.2.2.2.1, lo.2.2.2.2⟩
        | _ => ⟨r, ctx, ctr, none, []⟩
      else
        let co := childrenLoop (fun c v k => AbstractValidationRule.Validate fuel k c v)
          r.Children ctx ctr
        match co.2.2.2.1 with
        | some _ =>
            ⟨r.withParts r.Rules r.Validators co.1 r.contributors, co.2.1, co.2.2.1,
              some (), co.2.2.2.2⟩
        | none =>
            let ro := rulesLoop r.Rules co.2.1
            match ro.2.1 with
            | some _ =>
                ⟨r.withParts ro.1 r.Validators co.1 r.contributors, co.2.1, co.2.2.1,
                  some (), co.2.2.2.2 ++ ro.2.2⟩
            | none =>
                let vals := sharedLoop co.2.1 r.validator.ValidationFunctions r.Validators
                ⟨r.withParts ro.1 vals co.1 r.contributors, co.2.1, co.2.2.1, none,
                  co.2.2.2.2 ++ ro.2.2⟩

/-- Canonical settlement: every registered promise settles in registration
order (the behaviour when each promise is already settled when registered).
Used where the engine itself does not expose the settlement order. -/
def PropertyValidationRule.ValidateAsyncInOrder (r : PropertyValidationRule)
    (ctx : ValidationContext) : AsyncPassResult :=
  match ctx.Value with
  | .error _ => ⟨r, .syncThrow, []⟩
  | .ok value =>
      r.ValidateAsyncEx value
        (List.range (validateAsyncRegGo value r.Validators r.ValidationFailures
          ⟨[], none, none, [], false⟩).regs.length)

/-- Join of the fates of two spawned asynchronous operations, as observed at
the enclosing `Q.all`: a synchronous throw preempts everything, a never
settling component makes the join never settle, a rejection makes it reject. -/
def combineOutcome : PromiseOutcome → PromiseOutcome → PromiseOutcome
  | .syncThrow, _ => .syncThrow
  | _, .syncThrow => .syncThrow
  | .hangs, _ => .hangs
  | _, .hangs => .hangs
  | .rejects, _ => .rejects
  | _, .rejects => .rejects
  | .resolves, .resolves => .resolves

/-- Output of one asynchronous tree evaluation: updated node (after all
settled callbacks), the untouched data context, identity counter, the fate of
the returned promise, log. -/
structure TreeAsyncOut where
  rule : AbstractValidationRule
  context : JSVal
  ctr : Nat
  outcome : PromiseOutcome
  log : List String

/-- The `_.each(this.Children, ...)` loop of `ValidateAsync`: pushes
`val.ValidateAsync(context[key])` per child — with no initialization of
absent properties.  Reading `context[key]` on an `undefined`/`null` context,
or a child throwing synchronously, aborts the loop synchronously. -/
def childrenAsyncLoop (recur : AbstractValidationRule → JSVal → Nat → TreeAsyncOut) :
    List (String × AbstractValidationRule) → JSVal → Nat →
    List (String × AbstractValidationRule) × Nat × PromiseOutcome × List String
  | [], _, ctr => ([], ctr, .resolves, [])
  | (key, child) :: rest, ctx, ctr =>
      match ctx.get key with
      | .error _ => ((key, child) :: rest, ctr, .syncThrow, [])
      | .ok v =>
          let out := recur child v ctr
          match out.outcome with
          | .syncThrow => ((key, out.rule) :: rest, out.ctr, .syncThrow, out.log)
          | oc =>
              let o2 := childrenAsyncLoop recur rest ctx out.ctr
              ((key, out.rule) :: o2.1, o2.2.1, combineOutcome oc o2.2.2.1,
                out.log ++ o2.2.2.2)

/-- The `for (var propName in this.Rules)` loop of `ValidateAsync`: pushes
`rule.ValidateAsync(new ValidationContext(propName, context))` per rule; the
`context.Value` getter evaluates here, so an absent data context throws
synchronously. -/
def rulesAsyncLoop : List (String × PropertyValidationRule) → JSVal →
    List (String × PropertyValidationRule) × PromiseOutcome × List String
  | [], _ => ([], .resolves, [])
  | (prop, rule) :: rest, ctx =>
      let out := rule.ValidateAsyncInOrder ⟨prop, ctx⟩
      match out.outcome with
      | .syncThrow => ((prop, out.rule) :: rest, .syncThrow, out.log)
      | oc =>
          let o2 := rulesAsyncLoop rest ctx
          ((prop, out.rule) :: o2.1, combineOutcome oc o2.2.1, out.log ++ o2.2.2)

/-- The per-index loop of `AbstractListValidationRule.ValidateAsync`. -/
def listIndexAsyncLoop (recur : AbstractValidationRule → JSVal → Nat → TreeAsyncOut)
    (name : String) :
    List Nat → List (String × AbstractValidationRule) → List JSVal → Nat →
    List (String × AbstractValidationRule) × Nat × PromiseOutcome × List String
  | [], children, _, ctr => (children, ctr, .resolves, [])
  | i :: rest, children, elems, ctr =>
      match alookup children (getIndexedKey name i) with
      | none => listIndexAsyncLoop recur name rest children elems ctr
      | some child =>
          let out := recur child (elems.getD i .undefined) ctr
          let children := upsert children (getIndexedKey name i) out.rule
          match out.outcome with
          | .syncThrow => (children, out.ctr, .syncThrow, out.log)
          | oc =>
              let o2 := listIndexAsyncLoop recur name rest children elems out.ctr
              (o2.1, o2.2.1, combineOutcome oc o2.2.2.1, out.log ++ o2.2.2.2)

/-- The method `ValidateAsync(context)`.  Same traversal shape as `Validate`
but on the async paths: it performs no initialization of absent nested
properties and never writes to the data context; the returned deferred is
resolved only in the fulfillment handler of `Q.all`, so any rejected spawned
promise makes the result never settle. -/
def AbstractValidationRule.ValidateAsync : Nat → Nat → AbstractValidationRule → JSVal →
    TreeAsyncOut
  | 0, ctr, r, ctx => ⟨r, ctx, ctr, .resolves, []⟩
  | fuel + 1, ctr, r, ctx =>
      if r.ForList then
        match ctx with
        | .arr xs =>
            let notified := r.NotifyListChanged fuel ctr xs.length
            let lo := listIndexAsyncLoop
              (fun c v k => AbstractValidationRule.ValidateAsync fuel k c v)
              r.Name (List.range xs.length) notified.1.Children xs notified.2
            ⟨notified.1.withParts notified.1.Rules notified.1.Validators lo.1
                notified.1.contributors, ctx, lo.2.1, lo.2.2.1, lo.2.2.2⟩
        | _ => ⟨r, ctx, ctr, .resolves, []⟩
      else
        let co := childrenAsyncLoop
          (fun c v k => AbstractValidationRule.ValidateAsync fuel k c v) r.Children ctx ctr
        match co.2.2.1 with
        | .syncThrow =>
            ⟨r.withParts r.Rules r.Validators co.1 r.contributors, ctx, co.2.1,
              .syncThrow, co.2.2.2⟩
        | oc =>
            let ro := rulesAsyncLoop r.Rules ctx
            ⟨r.withParts ro.1 r.Validators co.1 r.contributors, ctx, co.2.1,
              combineOutcome oc ro.2.1, co.2.2.2 ++ ro.2.2⟩

/-- The shared-validation step of `ValidateField`: run the stored validators
of the functions declared against the property, when any are declared. -/
def validateFieldShared (ctx : JSVal) (fns : List (String × List IValidatorFce))
    (propName : String) (vals : List (String × Validator)) : List (String × Validator) :=
  match alookup fns propName with
  | none => vals
  | some fces => fces.foldl (sharedFceRun ctx) vals

/-- The method `ValidateField(context, propName)`: the nested child rule of
that property (when any), then the property rule (sync then async), then the
shared validators declared against that property.  Sibling properties are not
walked. -/
def AbstractValidationRule.ValidateField (fuel ctr : Nat) (r : AbstractValidationRule)
    (ctx : JSVal) (propName : String) : TreeSyncOut :=
  let step1 : List (String × AbstractValidationRule) × JSVal × Nat × Option Unit × List String :=
    match alookup r.Children propName with
    | none => (r.Children, ctx, ctr, none, [])
    | some child =>
        match ctx.get propName with
        | .error _ => (r.Children, ctx, ctr, some (), [])
        | .ok v =>
            let out := AbstractValidationRule.Validate fuel ctr child v
            (upsert r.Children propName out.rule, ctx.set propName out.context,
              out.ctr, out.fault, out.log)
  match step1.2.2.2.1 with
  | some _ =>
      ⟨r.withParts r.Rules r.Validators step1.1 r.contributors, step1.2.1, step1.2.2.1,
        some (), step1.2.2.2.2⟩
  | none =>
      let ctx1 := step1.2.1
      let step2 : List (String × PropertyValidationRule) × Option Unit × List String :=
        match alookup r.Rules propName with
        | none => (r.Rules, none, [])
        | some rule =>
            let out := rule.Validate ⟨propName, ctx1⟩
            match out.fault with
            | some _ => (upsert r.Rules propName out.rule, some (), out.log)
            | none =>
                let outA := out.rule.ValidateAsyncInOrder ⟨propName, ctx1⟩
                (upsert r.Rules propName outA.rule,
                  (match outA.outcome with
                   | .syncThrow => some ()
                   | _ => none),
                  out.log ++ outA.log)
      match step2.2.1 with
      | some _ =>
          ⟨r.withParts step2.1 r.Validators step1.1 r.contributors, ctx1, step1.2.2.1,
            some (), step1.2.2.2.2 ++ step2.2.2⟩
      | none =>
          ⟨r.withParts step2.1
              (validateFieldShared ctx1 r.validator.ValidationFunctions propName r.Validators)
              step1.1 r.contributors, ctx1, step1.2.2.1, none,
            step1.2.2.2.2 ++ step2.2.2⟩

/-! Sample validators, declarations and rules used as concrete evaluation
inputs. -/

/-- Sample validator accepting every value. -/
def passesAll (tag : String) : PropertyValidator :=
  { tagName := tag, isAcceptable := fun _ => .ok true }

/-- Sample validator rejecting every value. -/
def failsAll (tag : String) : PropertyValidator :=
  { tagName := tag, isAcceptable := fun _ => .ok false }

/-- Sample validator whose acceptability check throws. -/
def throwsAll (tag : String) : PropertyValidator :=
  { tagName := tag, isAcceptable := fun _ => .error () }

/-- Sample async validator whose promise resolves `false` (value rejected). -/
def asyncFails (tag : String) : PropertyValidator :=
  { tagName := tag, isAsync := true, isAcceptableAsync := fun _ => .resolves false }

/-- Sample async validator whose promise resolves `true` (value accepted). -/
def asyncPasses (tag : String) : PropertyValidator :=
  { tagName := tag, isAsync := true, isAcceptableAsync := fun _ => .resolves true }

/-- Sample async validator whose promise rejects. -/
def asyncRejecting (tag : String) : PropertyValidator :=
  { tagName := tag, isAsync := true, isAcceptableAsync := fun _ => .rejects }

/-- Sample async validator whose acceptability call throws synchronously;
an evaluation that completes normally certifies the call never happened. -/
def asyncProbe (tag : String) : PropertyValidator :=
  { tagName := tag, isAsync := true, isAcceptableAsync := fun _ => .throws }

/-- Sample async `required` validator: its promise resolves `false` exactly on
an absent value. -/
def asyncRequired : PropertyValidator :=
  { tagName := "required", isAsync := true,
    isAcceptableAsync := fun v => .resolves (!v.isAbsent) }

/-- Sample shared-validation function writing a fixed failure. -/
def sampleFce : IValidatorFce :=
  { Name := "V",
    ValidationFce := fun _ e => { e with HasError := true, ErrorMessage := "shared" } }

/-- Sample declaration: one property with a validator, one shared validation. -/
def sampleDecl : AbstractValidator :=
  (emptyAbstractValidator.RuleFor "P" (passesAll "t")).ValidationFor "P" sampleFce

/-- Sample nested-shape declarations: a child with one validated property,
declared under property `Child` of the parent. -/
def childDecl : AbstractValidator :=
  emptyAbstractValidator.RuleFor "E" (failsAll "req1")

def parentDecl : AbstractValidator :=
  emptyAbstractValidator.ValidatorFor "Child" childDecl false

/-- Sample element declaration for list rules. -/
def elemDecl : AbstractValidator :=
  emptyAbstractValidator.RuleFor "E" (passesAll "t")

/-- Sample declaration with two validated properties. -/
def twoPropDecl : AbstractValidator :=
  (emptyAbstractValidator.RuleFor "P" (failsAll "t")).RuleFor "Q" (failsAll "u")

/-- Sample rule tree instantiated from the nested declaration. -/
def parentRule : AbstractValidationRule :=
  (mkAbstractValidationRule 3 0 "root" parentDecl false).1

/-- The child node that `parentRule` is built with. -/
def childRule : AbstractValidationRule :=
  (mkAbstractValidationRule 2 1 "Child" (childDecl.withForList false) false).1

/-- Sample list rule over `elemDecl` elements. -/
def sampleListRule : AbstractValidationRule :=
  (elemDecl.CreateAbstractListRule 2 0 "L").1

/-- Every sync slot of `l` has a validator in `validators` whose acceptability
check on `value` does not throw. -/
def NoThrowOn (value : JSVal) (validators : List (String × PropertyValidator))
    (l : List (String × ValidationFailure)) : Prop :=
  ∀ tag fail, (tag, fail) ∈ l → fail.IsAsync = false →
    ∃ v b, alookup validators tag = some v ∧ syncOutcome value v = .ok b

/-- Every async slot of `l` has a validator in `validators` whose promise
expression on `value` does not throw synchronously. -/
def NoAsyncThrowOn (value : JSVal) (validators : List (String × PropertyValidator))
    (l : List (String × ValidationFailure)) : Prop :=
  ∀ tag fail, (tag, fail) ∈ l → fail.IsAsync = true →
    ∃ v, alookup validators tag = some v ∧ asyncReplyOf value v ≠ .throws

/-- The declared validator instances of `post` are those of `pre`, each either
untouched or touched only in its `AttemptedValue` field (set to the attempted
value). -/
def OnlyAttemptedValueTouched (value : JSVal)
    (pre post : List (String × PropertyValidator)) : Prop :=
  ∀ tag, alookup post tag = alookup pre tag ∨
    alookup post tag = (alookup pre tag).map (fun v => { v with AttemptedValue := some value })

/-- Sample property rule with a recorded failure and a predicate that is true
only at instant 0. -/
def sampleOptionalRule : PropertyValidationRule :=
  { Name := "P",
    ValidationFailures := [("a", ⟨{ HasError := true, ErrorMessage := "bad" }, false⟩)],
    Optional := some (fun w => w == 0) }

/-- Sample shared validator node with a recorded failure and a predicate that
is true only at instant 0. -/
def sampleOptionalValidator : Validator :=
  { vid := 0, Name := "V", ValidateFce := fun _ e => e,
    Error := { HasError := true, ErrorMessage := "bad" },
    Optional := some (fun w => w == 0) }

/-! From here on: theorems.  First the helper lemmas about the association
list operations and the evaluation loops, then one theorem per claim. -/

theorem alookup_upsert_same {α : Type} (l : List (String × α)) (key : String) (v : α) :
    alookup (upsert l key v) key = some v := by
  induction l with
  | nil => simp [alookup, upsert]
  | cons hd tl ih =>
      obtain ⟨k, w⟩ := hd
      by_cases h : k = key <;> simp [alookup, upsert, h, ih]

theorem alookup_upsert_other {α : Type} (l : List (String × α)) (key other : String) (v : α)
    (hne : key ≠ other) : alookup (upsert l key v) other = alookup l other := by
  induction l with
  | nil => simp [alookup, upsert, hne]
  | cons hd tl ih =>
      obtain ⟨k, w⟩ := hd
      by_cases h : k = key
      · subst h
        simp [alookup, upsert, hne]
      · simp [alookup, upsert, h, ih]

theorem alookup_updEntry_same {α : Type} (l : List (String × α)) (key : String) (f : α → α) :
    alookup (updEntry l key f) key = (alookup l key).map f := by
  induction l with
  | nil => simp [alookup, updEntry]
  | cons hd tl ih =>
      obtain ⟨k, w⟩ := hd
      by_cases h : k = key <;> simp [alookup, updEntry, h, ih]

theorem alookup_updEntry_other {α : Type} (l : List (String × α)) (key other : String)
    (f : α → α) (hne : other ≠ key) : alookup (updEntry l key f) other = alookup l other := by
  induction l with
  | nil => simp [alookup, updEntry]
  | cons hd tl ih =>
      obtain ⟨k, w⟩ := hd
      by_cases h : k = key
      · subst h
        simp [alookup, updEntry, Ne.symm hne, ih]
      · by_cases h2 : k = other <;> simp [alookup, updEntry, h, h2, hne, ih]

/-- Extending a validator with an attempted value does not change its
independent outcome (only `AttemptedValue` differs). -/
theorem syncOutcome_extend (value value2 : JSVal) (v : PropertyValidator) :
    syncOutcome value { v with AttemptedValue := some value2 } = syncOutcome value v := rfl

theorem NoThrowOn_upsert (value : JSVal) (validators : List (String × PropertyValidator))
    (l : List (String × ValidationFailure)) (k : String) (v : PropertyValidator)
    (hl : alookup validators k = some v) (h : NoThrowOn value validators l) :
    NoThrowOn value (upsert validators k { v with AttemptedValue := some value }) l := by
  intro tag fail hmem hasync
  obtain ⟨v0, b, hv0, hspec⟩ := h tag fail hmem hasync
  by_cases hk : tag = k
  · subst hk
    rw [hl] at hv0
    cases hv0
    exact ⟨_, b, alookup_upsert_same _ _ _, by rw [syncOutcome_extend]; exact hspec⟩
  · refine ⟨v0, b, ?_, hspec⟩
    rw [alookup_upsert_other _ _ _ _ (fun he => hk he.symm)]
    exact hv0

theorem NoThrowOn_tail (value : JSVal) (validators : List (String × PropertyValidator))
    (hd : String × ValidationFailure) (tl : List (String × ValidationFailure))
    (h : NoThrowOn value validators (hd :: tl)) : NoThrowOn value validators tl :=
  fun tag fail hmem hasync => h tag fail (List.mem_cons_of_mem _ hmem) hasync

/-- The short-circuit guard `shortCircuited && priority > lastPriority` is
permanently false: `priority` is the literal 0 and `lastPriority` is only ever
assigned 0, so the real loop coincides with the loop without the scaffolding. -/
theorem validateExGo_eq_noSC (value : JSVal) :
    ∀ (l : List (String × ValidationFailure)) (validators : List (String × PropertyValidator))
      (lp : Int) (sc : Bool), 0 ≤ lp →
      validateExGo value l validators lp sc = validateExNoSCGo value l validators := by
  intro l
  induction l with
  | nil => intro validators lp sc _; rfl
  | cons hd tl ih =>
      intro validators lp sc hlp
      obtain ⟨tag, fail⟩ := hd
      by_cases hA : fail.IsAsync
      · simp [validateExGo, validateExNoSCGo, hA, ih _ _ _ hlp]
      · cases halook : alookup validators tag with
        | none => simp [validateExGo, validateExNoSCGo, hA, halook]
        | some v =>
            have hcond : (sc && decide ((0 : Int) > lp)) = false := by
              have hn : ¬ ((0 : Int) > lp) := not_lt.mpr hlp
              simp [hn]
            cases hch : syncOutcome value v with
            | error e => simp [validateExGo, validateExNoSCGo, hA, halook, hcond, hch]
            | ok hasError =>
                simp [validateExGo, validateExNoSCGo, hA, halook, hcond, hch,
                  ih _ _ _ (le_refl (0 : Int))]

/-- The sync loop leaves the tag sequence of the failure slots untouched. -/
theorem validateExGo_keys (value : JSVal) :
    ∀ (l : List (String × ValidationFailure)) (validators : List (String × PropertyValidator))
      (lp : Int) (sc : Bool),
      (validateExGo value l validators lp sc).failures.map Prod.fst = l.map Prod.fst := by
  intro l
  induction l with
  | nil => intro validators lp sc; rfl
  | cons hd tl ih =>
      intro validators lp sc
      obtain ⟨tag, fail⟩ := hd
      by_cases hA : fail.IsAsync
      · simp [validateExGo, hA, ih]
      · cases halook : alookup validators tag with
        | none => simp [validateExGo, hA, halook]
        | some v =>
            by_cases hsc : (sc && decide ((0 : Int) > lp)) = true
            · simp [validateExGo, hA, halook, hsc, ih]
            · cases hch : syncOutcome value v with
              | error e => simp [validateExGo, hA, halook, hsc, hch]
              | ok hasError => simp [validateExGo, hA, halook, hsc, hch, ih]

/-- In the sync loop, a slot whose tag does not occur earlier gets exactly its
validator independent outcome, whatever happened on the earlier slots (as long
as none of them threw). -/
theorem validateExGo_eval_at (value : JSVal) :
    ∀ (l₁ : List (String × ValidationFailure)) (validators : List (String × PropertyValidator))
      (l₂ : List (String × ValidationFailure)) (tag : String) (fail : ValidationFailure)
      (v : PropertyValidator) (hasErr : Bool) (lp : Int) (sc : Bool),
      0 ≤ lp →
      NoThrowOn value validators l₁ →
      tag ∉ l₁.map Prod.fst →
      fail.IsAsync = false →
      alookup validators tag = some v →
      syncOutcome value v = .ok hasErr →
      alookup (validateExGo value (l₁ ++ (tag, fail) :: l₂) validators lp sc).failures tag
        = some { fail with Error := appliedError value v hasErr } := by
  intro l₁
  induction l₁ with
  | nil =>
      intro validators l₂ tag fail v hasErr lp sc hlp _ _ hfa hlook hspec
      have hcond : (sc && decide ((0 : Int) > lp)) = false := by
        have hn : ¬ ((0 : Int) > lp) := not_lt.mpr hlp
        simp [hn]
      simp [validateExGo, hfa, hlook, hcond, hspec, alookup]
  | cons hd tl ih =>
      intro validators l₂ tag fail v hasErr lp sc hlp hnt hmem hfa hlook hspec
      obtain ⟨k, f⟩ := hd
      have hkne : k ≠ tag := by
        intro he
        exact hmem (by simp [he])
      have hmem2 : tag ∉ tl.map Prod.fst := by
        intro hc
        exact hmem (by simp [hc])
      by_cases hA : f.IsAsync
      · have := ih validators l₂ tag fail v hasErr lp sc hlp
          (NoThrowOn_tail _ _ _ _ hnt) hmem2 hfa hlook hspec
        simp [validateExGo, hA, alookup, hkne, this]
      · obtain ⟨vk, bk, hvk, hbk⟩ :=
          hnt k f (List.mem_cons_self _ _) (Bool.not_eq_true _ ▸ by simpa using hA)
        have hcond : (sc && decide ((0 : Int) > lp)) = false := by
          have hn : ¬ ((0 : Int) > lp) := not_lt.mpr hlp
          simp [hn]
        have hlook2 : alookup (upsert validators k { vk with AttemptedValue := some value }) tag
            = some v := by
          rw [alookup_upsert_other _ _ _ _ hkne]
          exact hlook
        have := ih (upsert validators k { vk with AttemptedValue := some value }) l₂ tag fail v
          hasErr 0 bk (le_refl _)
          (NoThrowOn_upsert _ _ _ _ _ hvk (NoThrowOn_tail _ _ _ _ hnt)) hmem2 hfa hlook2 hspec
        simp [validateExGo, hA, hvk, hcond, hbk, alookup, hkne, this]

/-! Claim theorems. -/

/-- C4: in the synchronous pass every non-async validator is evaluated and its
own slot written regardless of earlier failures: `ValidateEx` coincides with
the loop stripped of the `lastPriority`/`shortCircuited` scaffolding (the
short-circuit branch is unreachable since `priority` is always 0), and a sync
slot whose tag is not repeated earlier receives exactly its validator's
independent outcome whatever happened on earlier slots (as long as no earlier
validator threw). -/
theorem claim4_short_circuit_inert :
    (∀ (r : PropertyValidationRule) (value : JSVal),
        r.ValidateEx value = r.ValidateExNoSC value)
    ∧
    (∀ (r : PropertyValidationRule) (value : JSVal)
        (l₁ l₂ : List (String × ValidationFailure)) (tag : String)
        (fail : ValidationFailure) (v : PropertyValidator) (hasErr : Bool),
        r.ValidationFailures = l₁ ++ (tag, fail) :: l₂ →
        NoThrowOn value r.Validators l₁ →
        tag ∉ l₁.map Prod.fst →
        fail.IsAsync = false →
        alookup r.Validators tag = some v →
        syncOutcome value v = .ok hasErr →
        alookup (r.ValidateEx value).rule.ValidationFailures tag
          = some { fail with Error := appliedError value v hasErr }) := by
  constructor
  · intro r value
    unfold PropertyValidationRule.ValidateEx PropertyValidationRule.ValidateExNoSC
    rw [validateExGo_eq_noSC value r.ValidationFailures r.Validators 0 false le_rfl]
  · intro r value l₁ l₂ tag fail v hasErr hsplit hnt hmem hfa hlook hspec
    unfold PropertyValidationRule.ValidateEx
    simp only [hsplit]
    exact validateExGo_eval_at value l₁ r.Validators l₂ tag fail v hasErr 0 false le_rfl
      hnt hmem hfa hlook hspec

/-- Witness for C4: with two rejecting sync validators the second slot still
records its own (failing) outcome after the first has already failed. -/
theorem claim4_short_circuit_inert_witness :
    alookup ((mkPropertyValidationRule "P" [failsAll "a", failsAll "b"]).ValidateEx
        (JSVal.str "x")).rule.ValidationFailures "b"
      = some ⟨appliedError (JSVal.str "x") (failsAll "b") true, false⟩ := by
  have h := claim4_short_circuit_inert.2
    (mkPropertyValidationRule "P" [failsAll "a", failsAll "b"]) (JSVal.str "x")
    [("a", ⟨{}, false⟩)] [] "b" ⟨{}, false⟩ (failsAll "b") true
    rfl
    (by
      intro tag fail hmem hasync
      simp only [List.mem_singleton] at hmem
      cases hmem
      exact ⟨failsAll "a", true, rfl, rfl⟩)
    (by simp)
    rfl rfl rfl
  exact h

/-- C6: a node carrying an optional-suppression predicate reports no errors
whenever the predicate currently returns true — `hasErrors` false,
`errorCount` 0, `errorMessage` empty — on property rule nodes and on shared
validator nodes alike; and the predicate is consulted afresh on each read:
when it returns false at the moment of the read, the getters expose the
underlying recorded failures. -/
theorem claim6_optional_suppression :
    (∀ (r : PropertyValidationRule) (p : Nat → Bool) (w : Nat),
        r.Optional = some p → p w = true →
        r.HasErrorsAt w = false ∧ r.ErrorCountAt w = 0 ∧ r.ErrorMessageAt w = "")
    ∧
    (∀ (v : Validator) (p : Nat → Bool) (w : Nat),
        v.Optional = some p → p w = true →
        v.HasErrorsAt w = false ∧ v.ErrorCountAt w = 0 ∧ v.ErrorMessageAt w = "")
    ∧
    (∀ (r : PropertyValidationRule) (p : Nat → Bool) (w : Nat),
        r.Optional = some p → p w = false →
        r.HasErrorsAt w = r.Errors.any (fun e => e.HasError))
    ∧
    (∀ (v : Validator) (p : Nat → Bool) (w : Nat),
        v.Optional = some p → p w = false →
        v.HasErrorsAt w = v.Error.HasError) := by
  refine ⟨?_, ?_, ?_, ?_⟩
  · intro r p w hp hw
    have h : r.HasErrorsAt w = false := by
      simp [PropertyValidationRule.HasErrorsAt, optionalNow, hp, hw]
    exact ⟨h, by simp [PropertyValidationRule.ErrorCountAt, h],
      by simp [PropertyValidationRule.ErrorMessageAt, h]⟩
  · intro v p w hp hw
    have h : v.HasErrorsAt w = false := by
      simp [Validator.HasErrorsAt, optionalNow, hp, hw]
    exact ⟨h, by simp [Validator.ErrorCountAt, h],
      by simp [Validator.ErrorMessageAt, h]⟩
  · intro r p w hp hw
    simp [PropertyValidationRule.HasErrorsAt, optionalNow, hp, hw]
  · intro v p w hp hw
    simp [Validator.HasErrorsAt, optionalNow, hp, hw]

/-- Witness for C6: the same recorded failure reads as suppressed at instant 0
and as an error at instant 1, on both node kinds. -/
theorem claim6_optional_suppression_witness :
    (sampleOptionalRule.HasErrorsAt 0 = false ∧ sampleOptionalRule.ErrorCountAt 0 = 0 ∧
      sampleOptionalRule.ErrorMessageAt 0 = "")
    ∧ sampleOptionalRule.HasErrorsAt 1 = true
    ∧ (sampleOptionalValidator.HasErrorsAt 0 = false ∧
        sampleOptionalValidator.ErrorCountAt 0 = 0 ∧
        sampleOptionalValidator.ErrorMessageAt 0 = "")
    ∧ sampleOptionalValidator.HasErrorsAt 1 = true := by
  refine ⟨claim6_optional_suppression.1 sampleOptionalRule _ 0 rfl rfl, ?_,
    claim6_optional_suppression.2.1 sampleOptionalValidator _ 0 rfl rfl, ?_⟩
  · rw [claim6_optional_suppression.2.2.1 sampleOptionalRule _ 1 rfl rfl]
    rfl
  · rw [claim6_optional_suppression.2.2.2 sampleOptionalValidator _ 1 rfl rfl]
    rfl

/-- C9 counterexample: evaluating a property rule writes an `AttemptedValue`
field onto the declared validator instance (`_.extend(validator,
\x7bAttemptedValue: value\x7d)` mutates its first argument), so the declared
validator objects are not left unchanged by evaluation. -/
theorem claim9_declaration_immutable_counterexample :
    ((alookup ((mkPropertyValidationRule "P" [passesAll "t"]).ValidateEx
        (JSVal.str "x")).rule.Validators "t").map (fun v => v.AttemptedValue)
      = some (some (JSVal.str "x")))
    ∧ ((alookup (mkPropertyValidationRule "P" [passesAll "t"]).Validators "t").map
        (fun v => v.AttemptedValue) = some none) :=
  ⟨rfl, rfl⟩

theorem OnlyAVT_refl (value : JSVal) (l : List (String × PropertyValidator)) :
    OnlyAttemptedValueTouched value l l := fun _ => Or.inl rfl

theorem OnlyAVT_trans (value : JSVal) (a b c : List (String × PropertyValidator))
    (h1 : OnlyAttemptedValueTouched value a b) (h2 : OnlyAttemptedValueTouched value b c) :
    OnlyAttemptedValueTouched value a c := by
  intro tag
  rcases h2 tag with h2 | h2 <;> rcases h1 tag with h1 | h1
  · exact Or.inl (h2.trans h1)
  · exact Or.inr (h2.trans h1)
  · exact Or.inr (by rw [h2, h1])
  · right
    rw [h2, h1]
    cases alookup a tag <;> rfl

theorem OnlyAVT_upsert (value : JSVal) (l : List (String × PropertyValidator)) (k : String)
    (v : PropertyValidator) (hl : alookup l k = some v) :
    OnlyAttemptedValueTouched value l (upsert l k { v with AttemptedValue := some value }) := by
  intro tag
  by_cases h : tag = k
  · subst h
    right
    rw [alookup_upsert_same, hl]
    rfl
  · left
    exact alookup_upsert_other _ _ _ _ (fun he => h he.symm)

/-- The sync loop touches the validator objects only in `AttemptedValue`. -/
theorem validateExGo_onlyAV (value : JSVal) :
    ∀ (l : List (String × ValidationFailure)) (validators : List (String × PropertyValidator))
      (lp : Int) (sc : Bool),
      OnlyAttemptedValueTouched value validators
        (validateExGo value l validators lp sc).validators := by
  intro l
  induction l with
  | nil => intro validators lp sc; exact OnlyAVT_refl _ _
  | cons hd tl ih =>
      intro validators lp sc
      obtain ⟨tag, fail⟩ := hd
      by_cases hA : fail.IsAsync
      · simpa [validateExGo, hA] using ih validators lp sc
      · cases halook : alookup validators tag with
        | none => simpa [validateExGo, hA, halook] using OnlyAVT_refl value validators
        | some v =>
            by_cases hsc : (sc && decide ((0 : Int) > lp)) = true
            · simpa [validateExGo, hA, halook, hsc] using ih validators lp sc
            · simp only [Bool.not_eq_true] at hsc
              cases hch : syncOutcome value v with
              | error e =>
                  simpa [validateExGo, hA, halook, hsc, hch] using OnlyAVT_refl value validators
              | ok hasError =>
                  have step := OnlyAVT_upsert value validators tag v halook
                  have rest := ih (upsert validators tag { v with AttemptedValue := some value })
                    0 hasError
                  simpa [validateExGo, hA, halook, hsc, hch] using
                    OnlyAVT_trans value _ _ _ step rest

/-- One async callback touches the validator objects only in `AttemptedValue`. -/
theorem asyncCallbackWrite_onlyAV (value : JSVal) (ft vt : Option String) (b : Bool)
    (st : List (String × ValidationFailure) × List (String × PropertyValidator)) :
    OnlyAttemptedValueTouched value st.2 (asyncCallbackWrite value ft vt b st).2 := by
  cases ft with
  | none => exact OnlyAVT_refl _ _
  | some f =>
      cases vt with
      | none => exact OnlyAVT_refl _ _
      | some v =>
          cases halook : alookup st.2 v with
          | none => simpa [asyncCallbackWrite, halook] using OnlyAVT_refl value st.2
          | some vc =>
              simpa [asyncCallbackWrite, halook] using OnlyAVT_upsert value st.2 v vc halook

/-- The callback fold touches the validator objects only in `AttemptedValue`. -/
theorem asyncApplyCallbacks_onlyAV (value : JSVal) (ft vt : Option String)
    (regs : List AsyncReply) :
    ∀ (order : List Nat)
      (st : List (String × ValidationFailure) × List (String × PropertyValidator)),
      OnlyAttemptedValueTouched value st.2 (asyncApplyCallbacks value ft vt regs order st).2 := by
  intro order
  induction order with
  | nil => intro st; exact OnlyAVT_refl _ _
  | cons i rest ih =>
      intro st
      have step : OnlyAttemptedValueTouched value st.2
          ((match regs.get? i with
            | some (.resolves b) => asyncCallbackWrite value ft vt b st
            | _ => st)).2 := by
        cases hr : regs.get? i with
        | none => exact OnlyAVT_refl _ _
        | some r =>
            cases r with
            | resolves b => exact asyncCallbackWrite_onlyAV value ft vt b st
            | throws => exact OnlyAVT_refl _ _
            | rejects => exact OnlyAVT_refl _ _
      have tail := ih ((match regs.get? i with
        | some (.resolves b) => asyncCallbackWrite value ft vt b st
        | _ => st))
      simpa [asyncApplyCallbacks, List.foldl_cons] using
        OnlyAVT_trans value _ _ _ step tail

/-- C9 amended: evaluation does mutate the declared validator instances, but
only by writing the `AttemptedValue` field (set to the attempted value) via
`_.extend`; every other field of every declared validator is left unchanged,
in the synchronous pass and in the asynchronous pass alike. -/
theorem claim9_attempted_value_only_amended :
    (∀ (r : PropertyValidationRule) (value : JSVal),
        OnlyAttemptedValueTouched value r.Validators (r.ValidateEx value).rule.Validators)
    ∧
    (∀ (r : PropertyValidationRule) (value : JSVal) (order : List Nat),
        OnlyAttemptedValueTouched value r.Validators
          (r.ValidateAsyncEx value order).rule.Validators) := by
  constructor
  · intro r value
    exact validateExGo_onlyAV value r.ValidationFailures r.Validators 0 false
  · intro r value order
    exact asyncApplyCallbacks_onlyAV value _ _ _ order (r.ValidationFailures, r.Validators)

/-- C1 (evaluation at the failing input): a property rule with two async
validators, `a` rejecting the value (promise resolves false) and `b` accepting
it, promises settling in registration order.  After the sync pass and the
async pass both completed, the slot of tag `a` does not hold the outcome of
validator `a`: both callbacks wrote through the function-scoped loop variables
into the last-iterated slot (`b`), the final write being the outcome of `b`,
so both slots read no-error and the composite `HasErrors` misses the
rejection. -/
theorem claim1_async_capture_bug_eval :
    ((asyncFails "a").isAcceptableAsync (JSVal.str "x") = .resolves false)
    ∧ ((alookup ((((mkPropertyValidationRule "P" [asyncFails "a", asyncPasses "b"]).ValidateEx
          (JSVal.str "x")).rule.ValidateAsyncEx (JSVal.str "x")
            [0, 1]).rule.ValidationFailures) "a").map (fun f => f.Error.HasError)
        = some false)
    ∧ ((alookup ((((mkPropertyValidationRule "P" [asyncFails "a", asyncPasses "b"]).ValidateEx
          (JSVal.str "x")).rule.ValidateAsyncEx (JSVal.str "x")
            [0, 1]).rule.ValidationFailures) "b").map (fun f => f.Error.HasError)
        = some false)
    ∧ ((((mkPropertyValidationRule "P" [asyncFails "a", asyncPasses "b"]).ValidateEx
          (JSVal.str "x")).rule.ValidateAsyncEx (JSVal.str "x") [0, 1]).rule.HasErrorsAt 0
        = false)
    ∧ ((((mkPropertyValidationRule "P" [asyncFails "a", asyncPasses "b"]).ValidateEx
          (JSVal.str "x")).rule.ValidateAsyncEx (JSVal.str "x") [0, 1]).outcome
        = PromiseOutcome.resolves) :=
  ⟨rfl, rfl, rfl, rfl, rfl⟩

/-- C3 (evaluation at the failing input): in the async pass over a `null`
value, with an async `required` validator iterated first and a non-required
async validator `a` iterated last, whose acceptability capability would throw
if invoked; the `required` promise settles after the short-circuit promise of
`a`.  The pass resolves (so `a.isAcceptable` was indeed never invoked), but
the slot of the non-required validator `a` ends with `HasError = true` — the
required validator outcome landed there through the captured loop variables —
instead of being set to false as a passing absent-value check; the sync pass,
by contrast, does set the slot of a throwing non-required validator to
no-error on a `null` value without invoking it. -/
theorem claim3_absent_value_async_eval :
    (((mkPropertyValidationRule "P" [asyncRequired, asyncProbe "a"]).ValidateAsyncEx
        JSVal.null [1, 0]).outcome = PromiseOutcome.resolves)
    ∧ ((alookup ((mkPropertyValidationRule "P" [asyncRequired, asyncProbe "a"]).ValidateAsyncEx
          JSVal.null [1, 0]).rule.ValidationFailures "a").map (fun f => f.Error.HasError)
        = some true)
    ∧ ((alookup ((mkPropertyValidationRule "P" [asyncRequired, asyncProbe "a"]).ValidateAsyncEx
          JSVal.null [1, 0]).rule.ValidationFailures "required").map
            (fun f => f.Error.HasError) = some false)
    ∧ (((mkPropertyValidationRule "P" [throwsAll "m"]).ValidateEx JSVal.null).fault = none)
    ∧ ((alookup ((mkPropertyValidationRule "P" [throwsAll "m"]).ValidateEx
          JSVal.null).rule.ValidationFailures "m").map (fun f => f.Error.HasError)
        = some false) :=
  ⟨rfl, rfl, rfl, rfl, rfl⟩

/-- C2 counterexample: one async validator whose acceptability promise
rejects.  The promise returned by `ValidateAsync` does not reject — the
deferred is only ever resolved in the fulfillment handler of `Q.all`, so the
returned promise never settles — and nothing is logged. -/
theorem claim2_async_rejection_counterexample :
    (((mkPropertyValidationRule "P" [asyncRejecting "a"]).ValidateAsync
        ⟨"P", JSVal.obj [("P", JSVal.str "x")]⟩ []).outcome = PromiseOutcome.hangs)
    ∧ (((mkPropertyValidationRule "P" [asyncRejecting "a"]).ValidateAsync
        ⟨"P", JSVal.obj [("P", JSVal.str "x")]⟩ []).log = [])
    ∧ PromiseOutcome.hangs ≠ PromiseOutcome.rejects :=
  ⟨rfl, rfl, by decide⟩

/-- The registration walk neither logs nor throws when no async acceptability
call throws synchronously (in particular, a later rejection of the promise is
not logged). -/
theorem validateAsyncRegGo_noThrow (value : JSVal)
    (validators : List (String × PropertyValidator)) :
    ∀ (l : List (String × ValidationFailure)) (acc : AsyncRegOut),
      NoAsyncThrowOn value validators l →
      (validateAsyncRegGo value validators l acc).log = acc.log
      ∧ (validateAsyncRegGo value validators l acc).threw = acc.threw := by
  intro l
  induction l with
  | nil => intro acc _; exact ⟨rfl, rfl⟩
  | cons hd tl ih =>
      intro acc hnt
      obtain ⟨tag, fail⟩ := hd
      have htl : NoAsyncThrowOn value validators tl :=
        fun t f hm ha => hnt t f (List.mem_cons_of_mem _ hm) ha
      by_cases hA : fail.IsAsync
      · obtain ⟨v, hv, hrep⟩ := hnt tag fail (List.mem_cons_self _ _) hA
        cases hrep2 : asyncReplyOf value v with
        | throws => exact absurd hrep2 hrep
        | resolves b => simpa [validateAsyncRegGo, hA, hv, hrep2] using ih _ htl
        | rejects => simpa [validateAsyncRegGo, hA, hv, hrep2] using ih _ htl
      · simpa [validateAsyncRegGo, hA] using ih _ htl

/-- C2 amended: a synchronous validator's throw is logged and re-raised to
the caller of `Validate`, aborting that property's pass while leaving the
remaining failure slots untouched; but an asynchronous validator whose
acceptability promise rejects is not logged and does not make the promise
returned by `ValidateAsync` reject — the deferred is resolved only in the
fulfillment handler of `Q.all`, so that promise never settles. -/
theorem claim2_fault_propagation_amended :
    (∀ (r : PropertyValidationRule) (ctx : ValidationContext),
        (r.Validate ctx).fault = some () → (r.Validate ctx).log ≠ [])
    ∧
    (∀ (value : JSVal) (l₁ l₂ : List (String × ValidationFailure))
        (validators : List (String × PropertyValidator)) (lp : Int) (sc : Bool),
        (validateExGo value l₁ validators lp sc).fault = some () →
        validateExGo value (l₁ ++ l₂) validators lp sc =
          ⟨(validateExGo value l₁ validators lp sc).failures ++ l₂,
            (validateExGo value l₁ validators lp sc).validators,
            (validateExGo value l₁ validators lp sc).log, some ()⟩)
    ∧
    (∀ (r : PropertyValidationRule) (value : JSVal) (order : List Nat),
        ¬ (r.ValidateAsyncEx value order).outcome = PromiseOutcome.rejects)
    ∧
    (∀ (r : PropertyValidationRule) (value : JSVal) (order : List Nat),
        (validateAsyncRegGo value r.Validators r.ValidationFailures
          ⟨[], none, none, [], false⟩).threw = false →
        (validateAsyncRegGo value r.Validators r.ValidationFailures
          ⟨[], none, none, [], false⟩).regs.any AsyncReply.isRejects = true →
        (r.ValidateAsyncEx value order).outcome = PromiseOutcome.hangs)
    ∧
    (∀ (r : PropertyValidationRule) (value : JSVal) (order : List Nat),
        NoAsyncThrowOn value r.Validators r.ValidationFailures →
        (r.ValidateAsyncEx value order).log = []
        ∧ ¬ (r.ValidateAsyncEx value order).outcome = PromiseOutcome.syncThrow) := by
  refine ⟨?_, ?_, ?_, ?_, ?_⟩
  · intro r ctx
    unfold PropertyValidationRule.Validate
    cases hv : ctx.Value with
    | error e => intro _; simp
    | ok value =>
        cases hf : (r.ValidateEx value).fault with
        | none => intro hc; simp [hf] at hc
        | some u => intro _; simp [hf]
  · intro value l₁
    induction l₁ with
    | nil => intro l₂ validators lp sc hf; simp [validateExGo] at hf
    | cons hd tl ih =>
        intro l₂ validators lp sc hf
        obtain ⟨tag, fail⟩ := hd
        by_cases hA : fail.IsAsync
        · simp only [validateExGo, hA, if_true] at hf ⊢
          have := ih l₂ validators lp sc (by simpa using hf)
          simp [this]
        · cases halook : alookup validators tag with
          | none => simp [validateExGo, hA, halook]
          | some v =>
              by_cases hsc : (sc && decide ((0 : Int) > lp)) = true
              · simp only [validateExGo, hA, halook, hsc, if_true] at hf ⊢
                have := ih l₂ validators lp sc (by simpa using hf)
                simp [this]
              · simp only [Bool.not_eq_true] at hsc
                cases hch : syncOutcome value v with
                | error e => simp [validateExGo, hA, halook, hsc, hch]
                | ok hasError =>
                    simp only [validateExGo, hA, halook, hsc, hch] at hf ⊢
                    have := ih l₂ (upsert validators tag
                      { v with AttemptedValue := some value }) 0 hasError (by simpa using hf)
                    simp [this]
  · intro r value order
    show (if _ then PromiseOutcome.syncThrow else if _ then PromiseOutcome.hangs
      else PromiseOutcome.resolves) ≠ PromiseOutcome.rejects
    split
    · decide
    · split <;> decide
  · intro r value order h1 h2
    show (if _ then PromiseOutcome.syncThrow else if _ then PromiseOutcome.hangs
      else PromiseOutcome.resolves) = PromiseOutcome.hangs
    rw [h1, h2]
    rfl
  · intro r value order hnt
    have hreg := validateAsyncRegGo_noThrow value r.Validators r.ValidationFailures
      ⟨[], none, none, [], false⟩ hnt
    constructor
    · exact hreg.1
    · have h2 : (validateAsyncRegGo value r.Validators r.ValidationFailures
          ⟨[], none, none, [], false⟩).threw = false := hreg.2
      show ¬ (if _ then PromiseOutcome.syncThrow else if _ then PromiseOutcome.hangs
        else PromiseOutcome.resolves) = PromiseOutcome.syncThrow
      rw [h2]
      simp only [Bool.false_eq_true, if_false]
      split <;> decide

/-- Witness for C2 amended: a throwing sync validator makes `Validate` log
(and re-raise); an aborted pass leaves the next slot untouched; a rejecting
async validator makes the async pass hang, not reject, with nothing logged. -/
theorem claim2_fault_propagation_amended_witness :
    (((mkPropertyValidationRule "P" [throwsAll "t"]).Validate
        ⟨"P", JSVal.obj [("P", JSVal.str "x")]⟩).log ≠ [])
    ∧ (validateExGo (JSVal.str "x")
        ([("t", ⟨{}, false⟩)] ++ [("u", ⟨{}, false⟩)]) [("t", throwsAll "t")] 0 false =
          ⟨(validateExGo (JSVal.str "x") [("t", ⟨{}, false⟩)]
              [("t", throwsAll "t")] 0 false).failures ++ [("u", ⟨{}, false⟩)],
            (validateExGo (JSVal.str "x") [("t", ⟨{}, false⟩)]
              [("t", throwsAll "t")] 0 false).validators,
            (validateExGo (JSVal.str "x") [("t", ⟨{}, false⟩)]
              [("t", throwsAll "t")] 0 false).log, some ()⟩)
    ∧ (¬ ((mkPropertyValidationRule "P" [asyncRejecting "a"]).ValidateAsyncEx
        (JSVal.str "x") []).outcome = PromiseOutcome.rejects)
    ∧ (((mkPropertyValidationRule "P" [asyncRejecting "a"]).ValidateAsyncEx
        (JSVal.str "x") []).outcome = PromiseOutcome.hangs)
    ∧ (((mkPropertyValidationRule "P" [asyncRejecting "a"]).ValidateAsyncEx
        (JSVal.str "x") []).log = []) := by
  refine ⟨claim2_fault_propagation_amended.1 _ _ rfl,
    claim2_fault_propagation_amended.2.1 (JSVal.str "x") [("t", ⟨{}, false⟩)]
      [("u", ⟨{}, false⟩)] [("t", throwsAll "t")] 0 false rfl,
    claim2_fault_propagation_amended.2.2.1 _ _ [],
    claim2_fault_propagation_amended.2.2.2.1 _ _ [] rfl rfl,
    (claim2_fault_propagation_amended.2.2.2.2 _ (JSVal.str "x") [] ?_).1⟩
  intro tag fail hmem hasync
  simp only [mkPropertyValidationRule, List.foldl] at hmem
  simp only [PropertyValidationRule.AddValidator] at hmem
  simp only [upsert, alookup] at hmem
  simp only [List.mem_singleton] at hmem
  cases hmem
  exact ⟨asyncRejecting "a", rfl, by simp [asyncReplyOf, asyncRejecting, JSVal.isAbsent]⟩

theorem withParts_Rules (r : AbstractValidationRule) (a : List (String × PropertyValidationRule))
    (b : List (String × Validator)) (c : List (String × AbstractValidationRule))
    (d : List String) : (r.withParts a b c d).Rules = a := rfl

theorem withParts_Validators (r : AbstractValidationRule)
    (a : List (String × PropertyValidationRule)) (b : List (String × Validator))
    (c : List (String × AbstractValidationRule)) (d : List String) :
    (r.withParts a b c d).Validators = b := rfl

theorem withParts_Children (r : AbstractValidationRule)
    (a : List (String × PropertyValidationRule)) (b : List (String × Validator))
    (c : List (String × AbstractValidationRule)) (d : List String) :
    (r.withParts a b c d).Children = c := rfl

theorem withParts_contributors (r : AbstractValidationRule)
    (a : List (String × PropertyValidationRule)) (b : List (String × Validator))
    (c : List (String × AbstractValidationRule)) (d : List String) :
    (r.withParts a b c d).contributors = d := rfl

theorem withParts_rid (r : AbstractValidationRule)
    (a : List (String × PropertyValidationRule)) (b : List (String × Validator))
    (c : List (String × AbstractValidationRule)) (d : List String) :
    (r.withParts a b c d).rid = r.rid := rfl

/-- The shared-validation walk leaves validator entries whose names are not
among the executed functions untouched. -/
theorem sharedFcesFold_other (ctx : JSVal) :
    ∀ (fces : List IValidatorFce) (vals : List (String × Validator)) (name : String),
      name ∉ fces.map IValidatorFce.Name →
      alookup (fces.foldl (sharedFceRun ctx) vals) name = alookup vals name := by
  intro fces
  induction fces with
  | nil => intro vals name _; rfl
  | cons fce rest ih =>
      intro vals name h
      have h1 : fce.Name ≠ name := by
        intro he
        exact h (by simp [he])
      have h2 : name ∉ rest.map IValidatorFce.Name := fun hc => h (by simp [hc])
      rw [List.foldl_cons, ih _ _ h2]
      cases halook : alookup vals fce.Name with
      | none => simp [sharedFceRun, halook]
      | some v => simp [sharedFceRun, halook, alookup_upsert_other _ _ _ _ h1]

/-- The `Children` map after `ValidateField` is the original one, possibly
overwritten at the validated property only. -/
theorem ValidateField_Children_shape (fuel ctr : Nat) (r : AbstractValidationRule)
    (ctx : JSVal) (propName : String) :
    (AbstractValidationRule.ValidateField fuel ctr r ctx propName).rule.Children = r.Children
    ∨ ∃ c, (AbstractValidationRule.ValidateField fuel ctr r ctx propName).rule.Children
        = upsert r.Children propName c := by
  unfold AbstractValidationRule.ValidateField
  dsimp only
  repeat' split
  all_goals
    first
      | exact Or.inl rfl
      | exact Or.inr ⟨_, rfl⟩

/-- The `Rules` map after `ValidateField` is the original one, possibly
overwritten at the validated property only. -/
theorem ValidateField_Rules_shape (fuel ctr : Nat) (r : AbstractValidationRule)
    (ctx : JSVal) (propName : String) :
    (AbstractValidationRule.ValidateField fuel ctr r ctx propName).rule.Rules = r.Rules
    ∨ ∃ p, (AbstractValidationRule.ValidateField fuel ctr r ctx propName).rule.Rules
        = upsert r.Rules propName p := by
  unfold AbstractValidationRule.ValidateField
  dsimp only
  repeat' split
  all_goals
    first
      | exact Or.inl rfl
      | exact Or.inr ⟨_, rfl⟩

/-- The `Validators` map after `ValidateField` is the original one, possibly
run through the functions declared against the validated property only. -/
theorem ValidateField_Validators_shape (fuel ctr : Nat) (r : AbstractValidationRule)
    (ctx : JSVal) (propName : String) :
    (AbstractValidationRule.ValidateField fuel ctr r ctx propName).rule.Validators
        = r.Validators
    ∨ ∃ ctx1, (AbstractValidationRule.ValidateField fuel ctr r ctx propName).rule.Validators
        = validateFieldShared ctx1 r.validator.ValidationFunctions propName r.Validators := by
  unfold AbstractValidationRule.ValidateField
  dsimp only
  repeat' split
  all_goals
    first
      | exact Or.inl rfl
      | exact Or.inr ⟨_, rfl⟩

/-- C7: `ValidateField` on one property leaves every sibling property's rule
node and child node untouched, and touches only the shared validators whose
functions are declared against that property. -/
theorem claim7_validate_field_frame :
    ∀ (fuel ctr : Nat) (r : AbstractValidationRule) (ctx : JSVal) (propName other : String),
      other ≠ propName →
      (alookup (AbstractValidationRule.ValidateField fuel ctr r ctx propName).rule.Rules other
          = alookup r.Rules other
      ∧ alookup (AbstractValidationRule.ValidateField fuel ctr r ctx propName).rule.Children
            other = alookup r.Children other)
      ∧ (∀ name : String,
          (∀ fces, alookup r.validator.ValidationFunctions propName = some fces →
            name ∉ fces.map IValidatorFce.Name) →
          alookup (AbstractValidationRule.ValidateField fuel ctr r ctx propName).rule.Validators
            name = alookup r.Validators name) := by
  intro fuel ctr r ctx propName other hne
  have hno : propName ≠ other := fun he => hne he.symm
  refine ⟨⟨?_, ?_⟩, ?_⟩
  · rcases ValidateField_Rules_shape fuel ctr r ctx propName with h | ⟨p, h⟩
    · rw [h]
    · rw [h, alookup_upsert_other _ _ _ _ hno]
  · rcases ValidateField_Children_shape fuel ctr r ctx propName with h | ⟨c, h⟩
    · rw [h]
    · rw [h, alookup_upsert_other _ _ _ _ hno]
  · intro name hname
    rcases ValidateField_Validators_shape fuel ctr r ctx propName with h | ⟨ctx1, h⟩
    · rw [h]
    · rw [h]
      unfold validateFieldShared
      cases hfces : alookup r.validator.ValidationFunctions propName with
      | none => rfl
      | some fces => exact sharedFcesFold_other ctx1 fces r.Validators name (hname fces hfces)

/-- Witness for C7: validating field `P` of a two-property rule leaves the
rule node of sibling `Q` (and the child and shared maps) untouched. -/
theorem claim7_validate_field_frame_witness :
    (alookup (AbstractValidationRule.ValidateField 3 10
        (mkAbstractValidationRule 3 0 "root" twoPropDecl false).1
        (JSVal.obj [("P", JSVal.str "x"), ("Q", JSVal.str "y")]) "P").rule.Rules "Q"
      = alookup (mkAbstractValidationRule 3 0 "root" twoPropDecl false).1.Rules "Q")
    ∧ (alookup (AbstractValidationRule.ValidateField 3 10
        (mkAbstractValidationRule 3 0 "root" twoPropDecl false).1
        (JSVal.obj [("P", JSVal.str "x"), ("Q", JSVal.str "y")]) "P").rule.Children "Q"
      = alookup (mkAbstractValidationRule 3 0 "root" twoPropDecl false).1.Children "Q")
    ∧ (alookup (AbstractValidationRule.ValidateField 3 10
        (mkAbstractValidationRule 3 0 "root" twoPropDecl false).1
        (JSVal.obj [("P", JSVal.str "x"), ("Q", JSVal.str "y")]) "P").rule.Validators "W"
      = alookup (mkAbstractValidationRule 3 0 "root" twoPropDecl false).1.Validators "W") := by
  have h := claim7_validate_field_frame 3 10
    (mkAbstractValidationRule 3 0 "root" twoPropDecl false).1
    (JSVal.obj [("P", JSVal.str "x"), ("Q", JSVal.str "y")]) "P" "Q" (by decide)
  refine ⟨h.1.1, h.1.2, h.2 "W" ?_⟩
  intro fces hf
  cases hf

theorem alookup_append_of_none {α : Type} (a b : List (String × α)) (k : String)
    (h : alookup a k = none) : alookup (a ++ b) k = alookup b k := by
  induction a with
  | nil => rfl
  | cons hd tl ih =>
      obtain ⟨k0, v0⟩ := hd
      have h2 : (if k0 = k then some v0 else alookup tl k) = none := h
      show (if k0 = k then some v0 else alookup (tl ++ b) k) = alookup b k
      by_cases hk : k0 = k
      · rw [if_pos hk] at h2
        cases h2
      · rw [if_neg hk] at h2
        rw [if_neg hk]
        exact ih h2

theorem alookup_append_of_some {α : Type} (a b : List (String × α)) (k : String) (v : α)
    (h : alookup a k = some v) : alookup (a ++ b) k = some v := by
  induction a with
  | nil => cases h
  | cons hd tl ih =>
      obtain ⟨k0, v0⟩ := hd
      have h2 : (if k0 = k then some v0 else alookup tl k) = some v := h
      show (if k0 = k then some v0 else alookup (tl ++ b) k) = some v
      by_cases hk : k0 = k
      · rw [if_pos hk] at h2
        rw [if_pos hk]
        exact h2
      · rw [if_neg hk] at h2
        rw [if_neg hk]
        exact ih h2

/-- Sharedvalidator materialization is monotone: an already present name stays
present. -/
theorem addValidatorFces_mono (n : String) :
    ∀ (fces : List IValidatorFce) (st : SharedBuildSt),
      (alookup st.vals n).isSome = true →
      (alookup (addValidatorFces fces st).vals n).isSome = true := by
  intro fces
  induction fces with
  | nil => intro st h; exact h
  | cons fce rest ih =>
      intro st h
      cases hl : alookup st.vals fce.Name with
      | some v => simpa [addValidatorFces, hl] using ih st h
      | none =>
          have hnew : (alookup (st.vals ++ [(fce.Name, ⟨st.ctr, fce.Name,
              fce.ValidationFce, {}, none⟩)]) n).isSome = true := by
            cases hn : alookup st.vals n with
            | some w => simp [alookup_append_of_some _ _ _ _ hn]
            | none => simp [hn] at h
          simpa [addValidatorFces, hl] using
            ih ⟨st.vals ++ [(fce.Name, ⟨st.ctr, fce.Name, fce.ValidationFce, {}, none⟩)],
              st.contrib ++ [fce.Name], st.ctr + 1⟩ hnew

/-- Walking the function list of one property makes every listed name
present. -/
theorem addValidatorFces_present :
    ∀ (fces : List IValidatorFce) (st : SharedBuildSt) (fce : IValidatorFce),
      fce ∈ fces →
      (alookup (addValidatorFces fces st).vals fce.Name).isSome = true := by
  intro fces
  induction fces with
  | nil => intro st fce h; cases h
  | cons hd rest ih =>
      intro st fce h
      rcases List.mem_cons.mp h with he | hm
      · subst he
        cases hl : alookup st.vals fce.Name with
        | some v =>
            have hs : (alookup st.vals fce.Name).isSome = true := by simp [hl]
            simpa [addValidatorFces, hl] using addValidatorFces_mono fce.Name rest st hs
        | none =>
            have hnew : (alookup (st.vals ++ [(fce.Name, ⟨st.ctr, fce.Name,
                fce.ValidationFce, {}, none⟩)]) fce.Name).isSome = true := by
              rw [alookup_append_of_none _ _ _ hl]
              simp [alookup]
            simpa [addValidatorFces, hl] using addValidatorFces_mono fce.Name rest _ hnew
      · cases hl : alookup st.vals hd.Name with
        | some v => simpa [addValidatorFces, hl] using ih st fce hm
        | none => simpa [addValidatorFces, hl] using ih _ fce hm

theorem addValidationFunctions_mono (n : String) :
    ∀ (fns : List (String × List IValidatorFce)) (st : SharedBuildSt),
      (alookup st.vals n).isSome = true →
      (alookup (addValidationFunctions fns st).vals n).isSome = true := by
  intro fns
  induction fns with
  | nil => intro st h; exact h
  | cons hd rest ih =>
      intro st h
      exact ih _ (addValidatorFces_mono n hd.2 st h)

theorem addValidationFunctions_present :
    ∀ (fns : List (String × List IValidatorFce)) (st : SharedBuildSt)
      (prop : String) (fces : List IValidatorFce) (fce : IValidatorFce),
      (prop, fces) ∈ fns → fce ∈ fces →
      (alookup (addValidationFunctions fns st).vals fce.Name).isSome = true := by
  intro fns
  induction fns with
  | nil => intro st prop fces fce h _; cases h
  | cons hd rest ih =>
      intro st prop fces fce h hm
      rcases List.mem_cons.mp h with he | hmem
      · subst he
        exact addValidationFunctions_mono fce.Name rest _
          (addValidatorFces_present fces st fce hm)
      · exact ih _ prop fces fce hmem hm

/-- The entry projection (key, identity, name) of a shared validator map. -/
def valsIdProj (vals : List (String × Validator)) : List (String × Nat × String) :=
  vals.map (fun p => (p.1, p.2.vid, p.2.Name))

theorem valsIdProj_upsert (vals : List (String × Validator)) (k : String) (v w : Validator)
    (hl : alookup vals k = some v) (hid : w.vid = v.vid) (hn : w.Name = v.Name) :
    valsIdProj (upsert vals k w) = valsIdProj vals := by
  induction vals with
  | nil => simp [alookup] at hl
  | cons hd tl ih =>
      obtain ⟨k0, v0⟩ := hd
      by_cases hk : k0 = k
      · subst hk
        simp only [alookup, if_true] at hl
        cases hl
        simp [upsert, valsIdProj, hid, hn]
      · simp only [alookup, hk, if_false] at hl
        simp only [upsert, hk, if_false, valsIdProj, List.map_cons]
        have := ih hl
        simp only [valsIdProj] at this
        rw [this]

theorem valsIdProj_sharedFceRun (ctx : JSVal) (vals : List (String × Validator))
    (fce : IValidatorFce) : valsIdProj (sharedFceRun ctx vals fce) = valsIdProj vals := by
  cases hl : alookup vals fce.Name with
  | none => simp [sharedFceRun, hl]
  | some v =>
      simp only [sharedFceRun, hl]
      exact valsIdProj_upsert vals fce.Name v _ hl rfl rfl

theorem valsIdProj_sharedFold (ctx : JSVal) :
    ∀ (fces : List IValidatorFce) (vals : List (String × Validator)),
      valsIdProj (fces.foldl (sharedFceRun ctx) vals) = valsIdProj vals := by
  intro fces
  induction fces with
  | nil => intro vals; rfl
  | cons fce rest ih =>
      intro vals
      rw [List.foldl_cons, ih, valsIdProj_sharedFceRun]

theorem valsIdProj_sharedLoop (ctx : JSVal) :
    ∀ (fns : List (String × List IValidatorFce)) (vals : List (String × Validator)),
      valsIdProj (sharedLoop ctx fns vals) = valsIdProj vals := by
  intro fns
  induction fns with
  | nil => intro vals; rfl
  | cons hd rest ih =>
      intro vals
      show valsIdProj (rest.foldl _ (hd.2.foldl (sharedFceRun ctx) vals)) = _
      have : valsIdProj (sharedLoop ctx rest (hd.2.foldl (sharedFceRun ctx) vals))
          = valsIdProj (hd.2.foldl (sharedFceRun ctx) vals) := ih _
      simp only [sharedLoop] at this
      rw [this, valsIdProj_sharedFold]

/-- `Validate` keeps the key sequence, the identity and the name of every
shared validator entry of the node: no shared validator is created, removed or
replaced by evaluation. -/
theorem Validate_valsIdProj (fuel : Nat) :
    ∀ (ctr : Nat) (r : AbstractValidationRule) (ctx : JSVal),
      valsIdProj (AbstractValidationRule.Validate fuel ctr r ctx).rule.Validators
        = valsIdProj r.Validators := by
  cases fuel with
  | zero => intro ctr r ctx; rfl
  | succ f =>
      intro ctr r ctx
      unfold AbstractValidationRule.Validate
      dsimp only
      split
      · split
        · simp [withParts_Validators, AbstractValidationRule.NotifyListChanged]
        · rfl
      · split
        · simp [withParts_Validators]
        · split
          · simp [withParts_Validators]
          · simp [withParts_Validators, valsIdProj_sharedLoop]

/-- C8 counterexample: the shared `Validator` node exists in the node's
`Validators` map directly after construction, before any evaluation — it is
created eagerly by the constructor, not lazily on first evaluation. -/
theorem claim8_lazy_creation_counterexample :
    (alookup (mkAbstractValidationRule 3 0 "root" sampleDecl false).1.Validators "V").isSome
      = true := rfl

/-- C8 amended: the `Validator` node for each declared shared-validation name
is created eagerly at rule construction (not lazily on first evaluation), and
thereafter the same single instance per name is reused across repeated
`Validate` calls so its pass/fail state persists between calls. -/
theorem claim8_shared_validator_eager_amended :
    (∀ (fuel ctr : Nat) (name : String) (d : AbstractValidator) (prop : String)
        (fces : List IValidatorFce) (fce : IValidatorFce),
        (prop, fces) ∈ d.ValidationFunctions → fce ∈ fces →
        (alookup (mkAbstractValidationRule (fuel + 1) ctr name d false).1.Validators
          fce.Name).isSome = true)
    ∧
    (∀ (fuel ctr : Nat) (r : AbstractValidationRule) (ctx : JSVal),
        valsIdProj (AbstractValidationRule.Validate fuel ctr r ctx).rule.Validators
          = valsIdProj r.Validators) := by
  constructor
  · intro fuel ctr name d prop fces fce hmem hfce
    show (alookup (addValidationFunctions d.ValidationFunctions ⟨[], [], ctr + 1⟩).vals
      fce.Name).isSome = true
    exact addValidationFunctions_present d.ValidationFunctions _ prop fces fce hmem hfce
  · intro fuel ctr r ctx
    exact Validate_valsIdProj fuel ctr r ctx

/-- Witness for C8 amended: the declared name `V` is present at construction,
and a `Validate` call preserves the identity projection of the map. -/
theorem claim8_shared_validator_eager_amended_witness :
    ((alookup (mkAbstractValidationRule 3 0 "root" sampleDecl false).1.Validators "V").isSome
      = true)
    ∧ (valsIdProj (AbstractValidationRule.Validate 2 10
          (mkAbstractValidationRule 3 0 "root" sampleDecl false).1
          (JSVal.obj [("P", JSVal.str "x")])).rule.Validators
        = valsIdProj (mkAbstractValidationRule 3 0 "root" sampleDecl false).1.Validators) := by
  constructor
  · exact claim8_shared_validator_eager_amended.1 2 0 "root" sampleDecl "P" [sampleFce]
      sampleFce (by simp [sampleDecl, AbstractValidator.ValidationFor,
        AbstractValidator.RuleFor, emptyAbstractValidator,
        AbstractValidator.ValidationFunctions, upsert, alookup]) (List.mem_singleton.mpr rfl)
  · exact claim8_shared_validator_eager_amended.2 2 10 _ _

theorem upsert_of_none {α : Type} (l : List (String × α)) (k : String) (v : α)
    (h : alookup l k = none) : upsert l k v = l ++ [(k, v)] := by
  induction l with
  | nil => rfl
  | cons hd tl ih =>
      obtain ⟨k0, v0⟩ := hd
      have h2 : (if k0 = k then some v0 else alookup tl k) = none := h
      by_cases hk : k0 = k
      · rw [if_pos hk] at h2
        cases h2
      · rw [if_neg hk] at h2
        simp only [upsert, hk, if_false, List.cons_append, List.cons.injEq, true_and]
        exact ih h2

theorem notifyListGo_append (fuel : Nat) (name : String) (d : AbstractValidator) :
    ∀ (a b : List Nat) (st : List (String × AbstractValidationRule) × List String × Nat),
      notifyListGo fuel name d (a ++ b) st
        = notifyListGo fuel name d b (notifyListGo fuel name d a st) := by
  intro a
  induction a with
  | nil => intro b st; rfl
  | cons i rest ih =>
      intro b st
      cases hl : alookup st.1 (getIndexedKey name i) with
      | some c => simp only [List.cons_append, notifyListGo, hl]; exact ih b st
      | none => simp only [List.cons_append, notifyListGo, hl]; exact ih b _

theorem notifyListGo_preserves (fuel : Nat) (name : String) (d : AbstractValidator) :
    ∀ (idxs : List Nat) (st : List (String × AbstractValidationRule) × List String × Nat)
      (key : String) (c : AbstractValidationRule),
      alookup st.1 key = some c →
      alookup (notifyListGo fuel name d idxs st).1 key = some c := by
  intro idxs
  induction idxs with
  | nil => intro st key c h; exact h
  | cons i rest ih =>
      intro st key c h
      cases hl : alookup st.1 (getIndexedKey name i) with
      | some c0 => simp only [notifyListGo, hl]; exact ih st key c h
      | none =>
          have hk : getIndexedKey name i ≠ key := by
            intro he
            rw [he, h] at hl
            cases hl
          simp only [notifyListGo, hl]
          refine ih _ key c ?_
          show alookup (upsert st.1 (getIndexedKey name i) _) key = some c
          rw [alookup_upsert_other _ _ _ _ hk]
          exact h

theorem notifyListGo_contrib (fuel : Nat) (name : String) (d : AbstractValidator) :
    ∀ (idxs : List Nat) (st : List (String × AbstractValidationRule) × List String × Nat),
      ∃ suf, (notifyListGo fuel name d idxs st).2.1 = st.2.1 ++ suf := by
  intro idxs
  induction idxs with
  | nil => intro st; exact ⟨[], by simp [notifyListGo]⟩
  | cons i rest ih =>
      intro st
      cases hl : alookup st.1 (getIndexedKey name i) with
      | some c0 => simpa only [notifyListGo, hl] using ih st
      | none =>
          obtain ⟨suf, hsuf⟩ := ih (upsert st.1 (getIndexedKey name i)
            (mkAbstractValidationRule fuel st.2.2 (getIndexedKey name i) d false).1,
            st.2.1 ++ [getIndexedKey name i],
            (mkAbstractValidationRule fuel st.2.2 (getIndexedKey name i) d false).2)
          refine ⟨[getIndexedKey name i] ++ suf, ?_⟩
          simp only [notifyListGo, hl]
          rw [hsuf]
          simp

theorem notifyListGo_noop (fuel : Nat) (name : String) (d : AbstractValidator) :
    ∀ (idxs : List Nat) (st : List (String × AbstractValidationRule) × List String × Nat),
      (∀ i, i ∈ idxs → (alookup st.1 (getIndexedKey name i)).isSome = true) →
      notifyListGo fuel name d idxs st = st := by
  intro idxs
  induction idxs with
  | nil => intro st _; rfl
  | cons i rest ih =>
      intro st h
      cases hl : alookup st.1 (getIndexedKey name i) with
      | some c0 =>
          simp only [notifyListGo, hl]
          exact ih st (fun j hj => h j (List.mem_cons_of_mem _ hj))
      | none =>
          have := h i (List.mem_cons_self _ _)
          rw [hl] at this
          cases this

/-- Evaluation never changes the identity of the node it evaluates. -/
theorem Validate_rid (fuel : Nat) :
    ∀ (ctr : Nat) (r : AbstractValidationRule) (ctx : JSVal),
      (AbstractValidationRule.Validate fuel ctr r ctx).rule.rid = r.rid := by
  cases fuel with
  | zero => intro ctr r ctx; rfl
  | succ f =>
      intro ctr r ctx
      unfold AbstractValidationRule.Validate
      dsimp only
      split
      · split
        · simp [withParts_rid, AbstractValidationRule.NotifyListChanged]
        · rfl
      · split
        · simp [withParts_rid]
        · split <;> simp [withParts_rid]

/-- The children walk of `Validate` keeps every child entry present with its
identity. -/
theorem childrenLoop_rid (recur : AbstractValidationRule → JSVal → Nat → TreeSyncOut)
    (hrec : ∀ c v k, (recur c v k).rule.rid = c.rid) :
    ∀ (l : List (String × AbstractValidationRule)) (ctx : JSVal) (ctr : Nat)
      (key : String) (c : AbstractValidationRule),
      alookup l key = some c →
      ∃ c2, alookup (childrenLoop recur l ctx ctr).1 key = some c2 ∧ c2.rid = c.rid := by
  intro l
  induction l with
  | nil => intro ctx ctr key c h; cases h
  | cons hd rest ih =>
      intro ctx ctr key c h
      obtain ⟨k0, child⟩ := hd
      have hlk : (if k0 = key then some child else alookup rest key) = some c := h
      by_cases hk : k0 = key
      · subst hk
        rw [if_pos rfl] at hlk
        have hce := Option.some.inj hlk
        subst hce
        cases hget : ctx.get k0 with
        | error e => exact ⟨child, by simp [childrenLoop, hget, alookup], rfl⟩
        | ok v0 =>
            by_cases hu : v0.isUndefined = true
            · cases hget2 : (ctx.set k0 (JSVal.obj [])).get k0 with
              | error e2 =>
                  exact ⟨child, by simp [childrenLoop, hget, hu, hget2, alookup], rfl⟩
              | ok v =>
                  cases hfault : (recur child v ctr).fault with
                  | some u =>
                      exact ⟨(recur child v ctr).rule,
                        by simp [childrenLoop, hget, hu, hget2, hfault, alookup],
                        hrec child v ctr⟩
                  | none =>
                      exact ⟨(recur child v ctr).rule,
                        by simp [childrenLoop, hget, hu, hget2, hfault, alookup],
                        hrec child v ctr⟩
            · cases hfault : (recur child v0 ctr).fault with
              | some u =>
                  exact ⟨(recur child v0 ctr).rule,
                    by simp [childrenLoop, hget, hu, hfault, alookup],
                    hrec child v0 ctr⟩
              | none =>
                  exact ⟨(recur child v0 ctr).rule,
                    by simp [childrenLoop, hget, hu, hfault, alookup],
                    hrec child v0 ctr⟩
      · rw [if_neg hk] at hlk
        cases hget : ctx.get k0 with
        | error e => exact ⟨c, by simp [childrenLoop, hget, alookup, hk, hlk], rfl⟩
        | ok v0 =>
            by_cases hu : v0.isUndefined = true
            · cases hget2 : (ctx.set k0 (JSVal.obj [])).get k0 with
              | error e2 =>
                  exact ⟨c, by simp [childrenLoop, hget, hu, hget2, alookup, hk, hlk], rfl⟩
              | ok v =>
                  cases hfault : (recur child v ctr).fault with
                  | some u =>
                      exact ⟨c, by simp [childrenLoop, hget, hu, hget2, hfault, alookup,
                        hk, hlk], rfl⟩
                  | none =>
                      obtain ⟨c2, hc2, hr⟩ := ih
                        (((ctx.set k0 (JSVal.obj []))).set k0 (recur child v ctr).context)
                        (recur child v ctr).ctr key c hlk
                      exact ⟨c2, by simp [childrenLoop, hget, hu, hget2, hfault, alookup,
                        hk, hc2], hr⟩
            · cases hfault : (recur child v0 ctr).fault with
              | some u =>
                  exact ⟨c, by simp [childrenLoop, hget, hu, hfault, alookup, hk, hlk], rfl⟩
              | none =>
                  obtain ⟨c2, hc2, hr⟩ := ih (ctx.set k0 (recur child v0 ctr).context)
                    (recur child v0 ctr).ctr key c hlk
                  exact ⟨c2, by simp [childrenLoop, hget, hu, hfault, alookup, hk, hc2], hr⟩

/-- The per-index walk of a list rule keeps every child entry present with its
identity. -/
theorem listIndexLoop_rid (recur : AbstractValidationRule → JSVal → Nat → TreeSyncOut)
    (hrec : ∀ c v k, (recur c v k).rule.rid = c.rid) (name : String) :
    ∀ (idxs : List Nat) (children : List (String × AbstractValidationRule))
      (elems : List JSVal) (ctr : Nat) (key : String) (c : AbstractValidationRule),
      alookup children key = some c →
      ∃ c2, alookup (listIndexLoop recur name idxs children elems ctr).1 key = some c2
        ∧ c2.rid = c.rid := by
  intro idxs
  induction idxs with
  | nil => intro children elems ctr key c h; exact ⟨c, h, rfl⟩
  | cons i rest ih =>
      intro children elems ctr key c h
      cases hl : alookup children (getIndexedKey name i) with
      | none =>
          simp only [listIndexLoop, hl]
          exact ih children elems ctr key c h
      | some child =>
          by_cases hk : key = getIndexedKey name i
          · subst hk
            have heq : child = c := Option.some.inj (hl.symm.trans h)
            cases hfault : (recur child (elems.getD i JSVal.undefined) ctr).fault with
            | some u =>
                refine ⟨(recur child (elems.getD i JSVal.undefined) ctr).rule, ?_, ?_⟩
                · simp only [listIndexLoop, hl, hfault]
                  exact alookup_upsert_same _ _ _
                · rw [hrec child (elems.getD i JSVal.undefined) ctr, heq]
            | none =>
                obtain ⟨c2, hc2, hr⟩ := ih
                  (upsert children (getIndexedKey name i)
                    (recur child (elems.getD i JSVal.undefined) ctr).rule)
                  (elems.set i (recur child (elems.getD i JSVal.undefined) ctr).context)
                  (recur child (elems.getD i JSVal.undefined) ctr).ctr (getIndexedKey name i)
                  (recur child (elems.getD i JSVal.undefined) ctr).rule
                  (alookup_upsert_same _ _ _)
                refine ⟨c2, ?_, ?_⟩
                · simp only [listIndexLoop, hl, hfault]
                  exact hc2
                · rw [hr, hrec child (elems.getD i JSVal.undefined) ctr, heq]
          · have hk2 : getIndexedKey name i ≠ key := fun he => hk he.symm
            cases hfault : (recur child (elems.getD i JSVal.undefined) ctr).fault with
            | some u =>
                refine ⟨c, ?_, rfl⟩
                simp only [listIndexLoop, hl, hfault]
                rw [alookup_upsert_other _ _ _ _ hk2]
                exact h
            | none =>
                obtain ⟨c2, hc2, hr⟩ := ih
                  (upsert children (getIndexedKey name i)
                    (recur child (elems.getD i JSVal.undefined) ctr).rule)
                  (elems.set i (recur child (elems.getD i JSVal.undefined) ctr).context)
                  (recur child (elems.getD i JSVal.undefined) ctr).ctr key c
                  (by rw [alookup_upsert_other _ _ _ _ hk2]; exact h)
                refine ⟨c2, ?_, hr⟩
                simp only [listIndexLoop, hl, hfault]
                exact hc2

/-- C5: list-rule children grow monotonically.  `NotifyListChanged` keeps
every existing child entry (same object, same accumulated state); the
composite contributors only ever gain entries; when children exist exactly for
the first `N` indices, notifying length `N + 1` appends exactly one new child,
keyed `Name + N` and freshly created from the element declaration; and a
`Validate` call (with a list of any length, longer or shorter) removes no
child and preserves each child's identity, appending only to the composite
contributors. -/
theorem claim5_list_children_monotone :
    (∀ (fuel ctr : Nat) (r : AbstractValidationRule) (len : Nat) (key : String)
        (c : AbstractValidationRule),
        alookup r.Children key = some c →
        alookup (r.NotifyListChanged fuel ctr len).1.Children key = some c)
    ∧
    (∀ (fuel ctr : Nat) (r : AbstractValidationRule) (len : Nat),
        ∃ suf, (r.NotifyListChanged fuel ctr len).1.contributors = r.contributors ++ suf)
    ∧
    (∀ (fuel ctr : Nat) (r : AbstractValidationRule) (N : Nat),
        (∀ i, i < N → (alookup r.Children (getIndexedKey r.Name i)).isSome = true) →
        alookup r.Children (getIndexedKey r.Name N) = none →
        (r.NotifyListChanged fuel ctr (N + 1)).1.Children
            = r.Children ++ [(getIndexedKey r.Name N,
                (mkAbstractValidationRule fuel ctr (getIndexedKey r.Name N) r.validator
                  false).1)]
        ∧ (r.NotifyListChanged fuel ctr (N + 1)).1.contributors
            = r.contributors ++ [getIndexedKey r.Name N])
    ∧
    (∀ (fuel ctr : Nat) (r : AbstractValidationRule) (ctx : JSVal) (key : String)
        (c : AbstractValidationRule),
        alookup r.Children key = some c →
        ∃ c2, alookup (AbstractValidationRule.Validate fuel ctr r ctx).rule.Children key
            = some c2 ∧ c2.rid = c.rid)
    ∧
    (∀ (fuel ctr : Nat) (r : AbstractValidationRule) (ctx : JSVal),
        ∃ suf, (AbstractValidationRule.Validate fuel ctr r ctx).rule.contributors
            = r.contributors ++ suf) := by
  refine ⟨?_, ?_, ?_, ?_, ?_⟩
  · intro fuel ctr r len key c h
    exact notifyListGo_preserves fuel r.Name r.validator (List.range len)
      (r.Children, r.contributors, ctr) key c h
  · intro fuel ctr r len
    exact notifyListGo_contrib fuel r.Name r.validator (List.range len)
      (r.Children, r.contributors, ctr)
  · intro fuel ctr r N hall hnone
    have hsplit : List.range (N + 1) = List.range N ++ [N] := List.range_succ N
    have hnoop : notifyListGo fuel r.Name r.validator (List.range N)
        (r.Children, r.contributors, ctr) = (r.Children, r.contributors, ctr) :=
      notifyListGo_noop fuel r.Name r.validator (List.range N) _
        (fun i hi => hall i (List.mem_range.mp hi))
    constructor
    · show (notifyListGo fuel r.Name r.validator (List.range (N + 1))
          (r.Children, r.contributors, ctr)).1 = _
      rw [hsplit, notifyListGo_append, hnoop]
      simp only [notifyListGo, hnone]
      exact upsert_of_none _ _ _ hnone
    · show (notifyListGo fuel r.Name r.validator (List.range (N + 1))
          (r.Children, r.contributors, ctr)).2.1 = _
      rw [hsplit, notifyListGo_append, hnoop]
      simp only [notifyListGo, hnone]
  · intro fuel ctr r ctx key c h
    cases fuel with
    | zero => exact ⟨c, h, rfl⟩
    | succ f =>
        unfold AbstractValidationRule.Validate
        dsimp only
        by_cases hfl : r.ForList = true
        · rw [if_pos hfl]
          cases ctx with
          | arr xs =>
              have h1 := notifyListGo_preserves f r.Name r.validator (List.range xs.length)
                (r.Children, r.contributors, ctr) key c h
              exact listIndexLoop_rid _ (fun c0 v k => Validate_rid f k c0 v) r.Name
                (List.range xs.length) _ xs _ key c h1
          | undefined => exact ⟨c, h, rfl⟩
          | null => exact ⟨c, h, rfl⟩
          | bool b => exact ⟨c, h, rfl⟩
          | num n => exact ⟨c, h, rfl⟩
          | str s => exact ⟨c, h, rfl⟩
          | obj fs => exact ⟨c, h, rfl⟩
        · rw [if_neg hfl]
          obtain ⟨c2, hc2, hr⟩ := childrenLoop_rid _ (fun c0 v k => Validate_rid f k c0 v)
            r.Children ctx ctr key c h
          repeat' split
          all_goals exact ⟨c2, hc2, hr⟩
  · intro fuel ctr r ctx
    cases fuel with
    | zero => exact ⟨[], by simp [AbstractValidationRule.Validate]⟩
    | succ f =>
        unfold AbstractValidationRule.Validate
        dsimp only
        by_cases hfl : r.ForList = true
        · rw [if_pos hfl]
          cases ctx with
          | arr xs =>
              exact notifyListGo_contrib f r.Name r.validator (List.range xs.length)
                (r.Children, r.contributors, ctr)
          | undefined => exact ⟨[], by simp⟩
          | null => exact ⟨[], by simp⟩
          | bool b => exact ⟨[], by simp⟩
          | num n => exact ⟨[], by simp⟩
          | str s => exact ⟨[], by simp⟩
          | obj fs => exact ⟨[], by simp⟩
        · rw [if_neg hfl]
          repeat' split
          all_goals exact ⟨[], by simp [withParts_contributors]⟩

/-- Witness for C5: a list rule that has seen one element keeps child `L0`
(identity included) and gains exactly child `L1` when notified of length 2;
validating removes nothing. -/
theorem claim5_list_children_monotone_witness :
    (alookup (((sampleListRule.NotifyListChanged 2 1 1).1.NotifyListChanged 2 5 2).1.Children)
        "L0" = some (mkAbstractValidationRule 2 1 "L0" elemDecl false).1)
    ∧ (((sampleListRule.NotifyListChanged 2 1 1).1.NotifyListChanged 2 5 2).1.Children
        = (sampleListRule.NotifyListChanged 2 1 1).1.Children
            ++ [("L1", (mkAbstractValidationRule 2 5 "L1" elemDecl false).1)])
    ∧ (∃ c2, alookup (AbstractValidationRule.Validate 2 5
          (sampleListRule.NotifyListChanged 2 1 1).1
          (JSVal.arr [JSVal.obj []])).rule.Children "L0" = some c2
        ∧ c2.rid = (mkAbstractValidationRule 2 1 "L0" elemDecl false).1.rid)
    ∧ (∃ suf, (AbstractValidationRule.Validate 2 5 (sampleListRule.NotifyListChanged 2 1 1).1
          (JSVal.arr [])).rule.contributors
        = (sampleListRule.NotifyListChanged 2 1 1).1.contributors ++ suf) := by
  refine ⟨claim5_list_children_monotone.1 2 5 _ 2 "L0" _ rfl, ?_,
    claim5_list_children_monotone.2.2.2.1 2 5 _ (JSVal.arr [JSVal.obj []]) "L0" _ rfl,
    claim5_list_children_monotone.2.2.2.2 2 5 _ (JSVal.arr [])⟩
  have h := claim5_list_children_monotone.2.2.1 2 5 (sampleListRule.NotifyListChanged 2 1 1).1 1
    (by
      intro i hi
      have hi0 : i = 0 := Nat.lt_one_iff.mp hi
      subst hi0
      rfl)
    rfl
  exact h.1

theorem JSVal.get_set_same (fs : List (String × JSVal)) (k : String) (v : JSVal) :
    ((JSVal.obj fs).set k v).get k = .ok v := by
  simp [JSVal.set, JSVal.get, alookup_upsert_same]

theorem JSVal.get_set_other (x : JSVal) (k k2 : String) (v : JSVal) (h : k ≠ k2) :
    (x.set k v).get k2 = x.get k2 := by
  cases x <;> simp [JSVal.set, JSVal.get]
  rw [alookup_upsert_other _ _ _ _ h]

/-- The children walk reads and writes the context only at the keys of the
walked children. -/
theorem childrenLoop_get_preserve (recur : AbstractValidationRule → JSVal → Nat → TreeSyncOut) :
    ∀ (l : List (String × AbstractValidationRule)) (ctx : JSVal) (ctr : Nat) (key : String),
      key ∉ l.map Prod.fst →
      (childrenLoop recur l ctx ctr).2.1.get key = ctx.get key := by
  intro l
  induction l with
  | nil => intro ctx ctr key _; rfl
  | cons hd rest ih =>
      intro ctx ctr key hmem
      obtain ⟨k0, child⟩ := hd
      have hk : k0 ≠ key := by
        intro he
        exact hmem (by simp [he])
      have hmem2 : key ∉ rest.map Prod.fst := fun hc => hmem (by simp [hc])
      cases hget : ctx.get k0 with
      | error e => simp [childrenLoop, hget]
      | ok v0 =>
          by_cases hu : v0.isUndefined = true
          · cases hget2 : (ctx.set k0 (JSVal.obj [])).get k0 with
            | error e2 =>
                simp only [childrenLoop, hget, hu, if_true, hget2]
                exact JSVal.get_set_other ctx k0 key (JSVal.obj []) hk
            | ok v =>
                cases hfault : (recur child v ctr).fault with
                | some u =>
                    simp only [childrenLoop, hget, hu, if_true, hget2, hfault]
                    rw [JSVal.get_set_other _ _ _ _ hk, JSVal.get_set_other _ _ _ _ hk]
                | none =>
                    simp only [childrenLoop, hget, hu, if_true, hget2, hfault]
                    rw [ih _ _ key hmem2, JSVal.get_set_other _ _ _ _ hk,
                      JSVal.get_set_other _ _ _ _ hk]
          · cases hfault : (recur child v0 ctr).fault with
            | some u =>
                simp only [childrenLoop, hget, hu, if_false, Bool.false_eq_true, hfault]
                rw [JSVal.get_set_other _ _ _ _ hk]
            | none =>
                simp only [childrenLoop, hget, hu, if_false, Bool.false_eq_true, hfault]
                rw [ih _ _ key hmem2, JSVal.get_set_other _ _ _ _ hk]

/-- A `Validate` call on a `null` context leaves it `null` (a non-object is
never written to). -/
theorem Validate_null_context (fuel : Nat) :
    ∀ (ctr : Nat) (c : AbstractValidationRule),
      (AbstractValidationRule.Validate fuel ctr c JSVal.null).context = JSVal.null := by
  cases fuel with
  | zero => intro ctr c; rfl
  | succ f =>
      intro ctr c
      unfold AbstractValidationRule.Validate
      dsimp only
      by_cases hfl : c.ForList = true
      · rw [if_pos hfl]
      · rw [if_neg hfl]
        have hco : (childrenLoop (fun c v k => AbstractValidationRule.Validate f k c v)
            c.Children JSVal.null ctr).2.1 = JSVal.null := by
          cases hc : c.Children with
          | nil => rfl
          | cons hd rest =>
              obtain ⟨k0, child⟩ := hd
              simp [childrenLoop, JSVal.get]
        repeat' split
        all_goals exact hco

/-- C10: `Validate` and `ValidateAsync` differ on absent nested properties.
On an object context whose nested property reads as strictly `undefined`, the
children walk of `Validate` assigns a fresh empty object to the property on
the input context and validates the child against it; a `null` nested
property is passed through as `null` (no initialization) and stays `null`.
`ValidateAsync` never touches the context, hands the child the `undefined`
value, and a child with any rule or child of its own then throws
synchronously while reading a property of `undefined`. -/
theorem claim10_nested_absent_divergence :
    (∀ (f ctr : Nat) (r : AbstractValidationRule) (ctx : JSVal),
        r.ForList = false →
        (AbstractValidationRule.Validate (f + 1) ctr r ctx).context
          = (childrenLoop (fun c v k => AbstractValidationRule.Validate f k c v)
              r.Children ctx ctr).2.1)
    ∧
    (∀ (f ctr : Nat) (key : String) (child : AbstractValidationRule)
        (rest : List (String × AbstractValidationRule)) (fs : List (String × JSVal)),
        (alookup fs key = none ∨ alookup fs key = some JSVal.undefined) →
        key ∉ rest.map Prod.fst →
        ((childrenLoop (fun c v k => AbstractValidationRule.Validate f k c v)
            ((key, child) :: rest) (JSVal.obj fs) ctr).2.1.get key
          = .ok (AbstractValidationRule.Validate f ctr child (JSVal.obj [])).context)
        ∧ (alookup (childrenLoop (fun c v k => AbstractValidationRule.Validate f k c v)
            ((key, child) :: rest) (JSVal.obj fs) ctr).1 key
          = some (AbstractValidationRule.Validate f ctr child (JSVal.obj [])).rule))
    ∧
    (∀ (f ctr : Nat) (key : String) (child : AbstractValidationRule)
        (rest : List (String × AbstractValidationRule)) (fs : List (String × JSVal)),
        alookup fs key = some JSVal.null →
        key ∉ rest.map Prod.fst →
        ((childrenLoop (fun c v k => AbstractValidationRule.Validate f k c v)
            ((key, child) :: rest) (JSVal.obj fs) ctr).2.1.get key = .ok JSVal.null)
        ∧ (alookup (childrenLoop (fun c v k => AbstractValidationRule.Validate f k c v)
            ((key, child) :: rest) (JSVal.obj fs) ctr).1 key
          = some (AbstractValidationRule.Validate f ctr child JSVal.null).rule))
    ∧
    (∀ (f ctr : Nat) (r : AbstractValidationRule) (ctx : JSVal),
        (AbstractValidationRule.ValidateAsync f ctr r ctx).context = ctx)
    ∧
    (∀ (f ctr : Nat) (key : String) (child : AbstractValidationRule)
        (rest : List (String × AbstractValidationRule)) (fs : List (String × JSVal)),
        (alookup fs key = none ∨ alookup fs key = some JSVal.undefined) →
        child.ForList = false →
        (child.Children ≠ [] ∨ child.Rules ≠ []) →
        (childrenAsyncLoop (fun c v k => AbstractValidationRule.ValidateAsync (f + 1) k c v)
            ((key, child) :: rest) (JSVal.obj fs) ctr).2.2.1 = PromiseOutcome.syncThrow) := by
  refine ⟨?_, ?_, ?_, ?_, ?_⟩
  · intro f ctr r ctx hfl
    conv_lhs => unfold AbstractValidationRule.Validate
    rw [if_neg (by rw [hfl]; exact Bool.false_ne_true)]
    dsimp only
    repeat' split
    all_goals rfl
  · intro f ctr key child rest fs habs hmem
    have hget : (JSVal.obj fs).get key = .ok JSVal.undefined := by
      rcases habs with h | h <;> simp [JSVal.get, h]
    have hget2 : ((JSVal.obj fs).set key (JSVal.obj [])).get key = .ok (JSVal.obj []) :=
      JSVal.get_set_same fs key (JSVal.obj [])
    cases hfault : (AbstractValidationRule.Validate f ctr child (JSVal.obj [])).fault with
    | some u =>
        constructor
        · simp only [childrenLoop, hget, JSVal.isUndefined, if_true, hget2, hfault]
          exact JSVal.get_set_same _ _ _
        · simp only [childrenLoop, hget, JSVal.isUndefined, if_true, hget2, hfault]
          simp [alookup]
    | none =>
        constructor
        · simp only [childrenLoop, hget, JSVal.isUndefined, if_true, hget2, hfault]
          rw [childrenLoop_get_preserve _ rest _ _ key hmem]
          exact JSVal.get_set_same _ _ _
        · simp only [childrenLoop, hget, JSVal.isUndefined, if_true, hget2, hfault]
          simp [alookup]
  · intro f ctr key child rest fs hnull hmem
    have hget : (JSVal.obj fs).get key = .ok JSVal.null := by simp [JSVal.get, hnull]
    have hctx := Validate_null_context f ctr child
    cases hfault : (AbstractValidationRule.Validate f ctr child JSVal.null).fault with
    | some u =>
        constructor
        · simp only [childrenLoop, hget, JSVal.isUndefined, Bool.false_eq_true, if_false, hfault]
          rw [hctx]
          exact JSVal.get_set_same _ _ _
        · simp only [childrenLoop, hget, JSVal.isUndefined, Bool.false_eq_true, if_false, hfault]
          simp [alookup]
    | none =>
        constructor
        · simp only [childrenLoop, hget, JSVal.isUndefined, Bool.false_eq_true, if_false, hfault]
          rw [childrenLoop_get_preserve _ rest _ _ key hmem, hctx]
          exact JSVal.get_set_same _ _ _
        · simp only [childrenLoop, hget, JSVal.isUndefined, Bool.false_eq_true, if_false, hfault]
          simp [alookup]
  · intro f ctr r ctx
    cases f with
    | zero => rfl
    | succ g =>
        unfold AbstractValidationRule.ValidateAsync
        dsimp only
        repeat' split
        all_goals rfl
  · intro f ctr key child rest fs habs hfl hne
    have hget : (JSVal.obj fs).get key = .ok JSVal.undefined := by
      rcases habs with h | h <;> simp [JSVal.get, h]
    have hout : (AbstractValidationRule.ValidateAsync (f + 1) ctr child JSVal.undefined).outcome
        = PromiseOutcome.syncThrow := by
      unfold AbstractValidationRule.ValidateAsync
      dsimp only
      rw [if_neg (by rw [hfl]; exact Bool.false_ne_true)]
      cases hc : child.Children with
      | cons hd t =>
          obtain ⟨k0, c0⟩ := hd
          simp [childrenAsyncLoop, JSVal.get]
      | nil =>
          rcases hne with hne | hne
          · exact absurd hc hne
          · cases hr : child.Rules with
            | nil => exact absurd hr hne
            | cons hd t =>
                obtain ⟨p0, r0⟩ := hd
                simp [childrenAsyncLoop, rulesAsyncLoop,
                  PropertyValidationRule.ValidateAsyncInOrder, ValidationContext.Value,
                  JSVal.get, combineOutcome]
    simp only [childrenAsyncLoop, hget, hout]

/-- Witness for C10: on the sample nested rule, `Validate` initializes the
absent `Child` property to an empty object while a `null` one stays `null`,
and `ValidateAsync` leaves the context alone and throws synchronously inside
the child. -/
theorem claim10_nested_absent_divergence_witness :
    ((AbstractValidationRule.Validate 3 10 parentRule (JSVal.obj [])).context
      = (childrenLoop (fun c v k => AbstractValidationRule.Validate 2 k c v)
          parentRule.Children (JSVal.obj []) 10).2.1)
    ∧ ((childrenLoop (fun c v k => AbstractValidationRule.Validate 2 k c v)
          [("Child", childRule)] (JSVal.obj []) 10).2.1.get "Child"
        = .ok (AbstractValidationRule.Validate 2 10 childRule (JSVal.obj [])).context)
    ∧ ((childrenLoop (fun c v k => AbstractValidationRule.Validate 2 k c v)
          [("Child", childRule)] (JSVal.obj [("Child", JSVal.null)]) 10).2.1.get "Child"
        = .ok JSVal.null)
    ∧ ((AbstractValidationRule.ValidateAsync 3 10 parentRule (JSVal.obj [])).context
        = JSVal.obj [])
    ∧ ((childrenAsyncLoop (fun c v k => AbstractValidationRule.ValidateAsync 2 k c v)
          [("Child", childRule)] (JSVal.obj []) 10).2.2.1 = PromiseOutcome.syncThrow) :=
  ⟨claim10_nested_absent_divergence.1 2 10 parentRule (JSVal.obj []) rfl,
    (claim10_nested_absent_divergence.2.1 2 10 "Child" childRule [] [] (Or.inl rfl)
      (by simp)).1,
    (claim10_nested_absent_divergence.2.2.1 2 10 "Child" childRule [] [("Child", JSVal.null)]
      rfl (by simp)).1,
    claim10_nested_absent_divergence.2.2.2.1 3 10 parentRule (JSVal.obj []),
    claim10_nested_absent_divergence.2.2.2.2 1 10 "Child" childRule [] [] (Or.inl rfl) rfl
      (Or.inr (by
        rw [show childRule.Rules
          = [("E", mkPropertyValidationRule "E" [failsAll "req1"])] from rfl]
        exact List.cons_ne_nil _ _))⟩

end Validation
